import Mathlib

/-!
# cherry, package `cherryHandler` (net/handler): dispatch component and remote executor

A shallow embedding of `net/handler/component.go` and `net/handler/executor_remote.go`, and
the properties of the dispatch component, of the remote executor and of the order of
invocations.

Conventions of the embedding.

* Pointers the code checks against nil (`session`, `msg`, `handlerGroup`, the values of a
  handler table) are `Option`s; pointers the code dereferences unconditionally (the fields
  of an `ExecutorRemote`, the application) are plain values.
* A Go map is an association list; the traversal order of `range` over a map is a
  parameter of the function that ranges.
* A `*HandlerGroup` held by the component is its position in `Component.groups`.
* Calls that leave the package and have no result the code looks at (`group.InQueue`,
  `natsMsg.Respond`, the reflective call of the handler method) are recorded in the list of
  effects a function returns; logging is not recorded.
* The route codec, the serializer, the result codes and the handler interface are fields of
  parameter records. `Route.String`, `CRC32`, the queue hash of a local executor and the
  queues and workers of a handler group live in files that are not among the sources; they
  are modelled from the specification, and their doc comments say so.
* The type `int` is 64 bits wide.
-/

namespace cherryHandler

/-! ## Data model -/

/-- Byte slices (`[]byte`). -/
abbrev Bytes := List Nat

/-- A parsed route (`cherryMessage.Route`): what `NodeType()`, `HandleName()` and `Method()`
return. -/
structure Route where
  nodeType : String
  handleName : String
  method : String
deriving DecidableEq, Repr

/-- A payload object behind a pointer: the name of its type and its fields. -/
structure Obj where
  typeName : String
  fields : List (String × Int)
deriving DecidableEq, Repr

/-- A `reflect.Type`, as far as `Elem()` tells types apart. -/
inductive RType where
  | named (name : String)
  | pointerTo (elem : RType)
deriving DecidableEq, Repr

/-- A `reflect.Value` (equivalently the dynamic value of an `interface{}`), as far as
`IsNil()` and the type assertion `.(int32)` tell values apart. -/
inductive Value where
  /-- a nil pointer, interface, map or slice -/
  | nilRef
  /-- a non-nil pointer -/
  | ref (obj : Obj)
  /-- an `int32` -/
  | int32 (n : Int)
  /-- any other value of a kind that has no nil (struct, string, int, ...) -/
  | plain (obj : Obj)
deriving DecidableEq, Repr

/-- A Go panic, with its message. -/
structure Panic where
  msg : String
deriving DecidableEq, Repr

/-- The response envelope `cproto.Response`. A nil `Data` is the empty list. -/
structure Response where
  Code : Int
  Data : Bytes
deriving DecidableEq, Repr

/-- What `Marshal` is applied to in this package. -/
inductive Any where
  | value (v : Value)
  | response (rsp : Response)
deriving DecidableEq, Repr

/-- The result codes of package `code` the two files refer to. -/
structure Codes where
  OK : Int
  RPCRemoteExecuteError : Int
deriving DecidableEq, Repr

/-- The application host (`facade.IApplication`): `Running()`, `NodeType()` and the
serializer. `Marshal` returns Go's pair `([]byte, error)`. `codes` holds the constants of
package `code`. -/
structure Application where
  Running : Bool
  NodeType : String
  Marshal : Any → Bytes × Option String
  Unmarshal : Bytes → RType → Except String Obj
  codes : Codes

/-- A handler method (`facade.MethodInfo`): the types of its arguments and the function
value; `Call` is `reflect.Value.Call`, which panics when the method panics and returns a
slice that may be nil (`none`). -/
structure MethodInfo where
  InArgs : List RType
  Call : List Value → Except Panic (Option (List Value))

/-- A handler (`facade.IHandler`), as far as this package calls it. -/
structure Handler where
  Name : String
  LocalHandler : String → Option MethodInfo
  RemoteHandler : String → Option MethodInfo

/-- A client session (`cherrySession.Session`). -/
structure Session where
  UID : Int
deriving DecidableEq, Repr

/-- A client message (`cherryMessage.Message`); `routeInfo` is what `RouteInfo()` returns. -/
structure Message where
  ID : Nat
  Route : String
  Data : Bytes
  routeInfo : Option cherryHandler.Route
deriving DecidableEq, Repr

/-- The route codec of net/message. `ParseRoute` gives, when it succeeds, the route that
`RouteInfo()` returns afterwards. -/
structure Codec where
  DecodeRoute : String → Except String Route
  ParseRoute : Message → Except String Route

/-! ### Go maps -/

/-- A Go `map[string]V`. -/
abbrev GoMap (V : Type) := List (String × V)

/-- The keys of a map. -/
def GoMap.keys {V : Type} (m : GoMap V) : List String := m.map Prod.fst

/-- The lookup `v, found := m[k]`. -/
def GoMap.get {V : Type} (m : GoMap V) (k : String) : Option V := List.lookup k m

/-- The statement `delete(m, k)`. -/
def GoMap.delete {V : Type} (m : GoMap V) (k : String) : GoMap V :=
  m.filter (fun kv => kv.1 ≠ k)

/-- The statement `m[k] = v`. -/
def GoMap.set {V : Type} (m : GoMap V) (k : String) (v : V) : GoMap V :=
  (k, v) :: m.delete k

/-! ### Component -/

/-- The value of a request-scoped context key. -/
inductive CtxValue where
  | messageId (id : Nat)
  | route (text : String)
deriving DecidableEq, Repr

/-- A `context.Context` built by `cherryContext.Add`, innermost entry last. -/
abbrev Context := List CtxValue

/-- The type `FilterFn`. -/
abbrev FilterFn := Context → Session → Message → Bool

/-- A handler group (`HandlerGroup`), as far as the component reads it: the handler table.
An entry may hold a nil handler. -/
structure HandlerGroup where
  handlers : GoMap (Option Handler)

/-- The struct `options`. -/
structure options where
  beforeFilters : List FilterFn
  afterFilters : List FilterFn
  nameFn : String → String
  printRouteLog : Bool

/-- The struct `Component`; `app` is what `c.App()` returns. -/
structure Component extends options where
  app : Application
  groups : List HandlerGroup

/-- The struct `ExecutorLocal`, as `ProcessLocal` fills it. -/
structure ExecutorLocal where
  IApplication : Application
  Session : Session
  Msg : Message
  HandlerFn : MethodInfo
  Ctx : Context
  BeforeFilters : List FilterFn
  AfterFilters : List FilterFn
  PrintLog : Bool

/-- The transport message `nats.Msg`, as far as the executor reads it. -/
structure NatsMsg where
  Subject : String
  Reply : String
deriving DecidableEq, Repr

/-- The struct `ExecutorRemote`. -/
structure ExecutorRemote where
  IApplication : Application
  handlerFn : MethodInfo
  rt : Route
  data : Bytes
  natsMsg : NatsMsg

/-- An `IExecutor` handed to a group. -/
inductive Executor where
  | ofLocal (e : ExecutorLocal)
  | ofRemote (e : ExecutorRemote)

/-- One call `group.InQueue(executor)`. -/
structure InQueue where
  group : Nat
  executor : Executor

/-- The body of the loop of `Register` for the entry under `handlerName`; an entry that is
no longer in the table when the traversal reaches it is not produced. -/
def registerEntry (nameFn : String → String) (handlers : GoMap (Option Handler))
    (handlerName : String) : GoMap (Option Handler) :=
  match handlers.get handlerName with
  | none => handlers
  | some handler =>
    let name := nameFn handlerName
    if name ≠ handlerName then
      (handlers.delete handlerName).set name handler
    else
      handlers

/-- The method `Component.Register`. `order` is the sequence of keys in which `range` reaches the
entries of `handlerGroup.handlers`. -/
def Component.Register (c : Component) (handlerGroup : Option HandlerGroup)
    (order : List String) : Component :=
  match handlerGroup with
  | none => c
  | some handlerGroup =>
    let handlers := order.foldl (registerEntry c.nameFn) handlerGroup.handlers
    { c with groups := c.groups ++ [{ handlerGroup with handlers := handlers }] }

/-- The loop of `Component.getGroup` over the groups from position `i` on. -/
def getGroupFrom (handlerName : String) : Nat → List HandlerGroup → Option Nat × Option Handler
  | _, [] => (none, none)
  | i, group :: rest =>
    match group.handlers.get handlerName with
    | some handler => (some i, handler)
    | none => getGroupFrom handlerName (i + 1) rest

/-- The method `Component.getGroup`. -/
def Component.getGroup (c : Component) (handlerName : String) : Option Nat × Option Handler :=
  getGroupFrom handlerName 0 c.groups

/-- The method `Component.GetHandler`: Go's four results. -/
def Component.GetHandler (codec : Codec) (c : Component) (route : String) :
    Option Route × Option Nat × Option Handler × Bool :=
  match codec.DecodeRoute route with
  | .error _ => (none, none, none, false)
  | .ok r =>
    let handlerName := c.nameFn r.handleName
    if handlerName = "" then
      (none, none, none, false)
    else
      match c.getGroup handlerName with
      | (some group, some handler) => (some r, some group, some handler, true)
      | _ => (none, none, none, false)

/-- The method `Component.ProcessLocal`: the calls of `InQueue` it makes. -/
def Component.ProcessLocal (codec : Codec) (c : Component) (session : Option Session)
    (msg : Option Message) : List InQueue :=
  if !c.app.Running then
    []
  else
    match session with
    | none => []
    | some session =>
      match msg with
      | none => []
      | some msg =>
        let parsed : Option Message :=
          match msg.routeInfo with
          | some _ => some msg
          | none =>
            match codec.ParseRoute msg with
            | .error _ => none
            | .ok ri => some { msg with routeInfo := some ri }
        match parsed with
        | none => []
        | some msg =>
          match msg.routeInfo with
          | none => []
          | some routeInfo =>
            if routeInfo.nodeType ≠ c.app.NodeType then
              []
            else
              let ctx : Context := [CtxValue.messageId msg.ID, CtxValue.route msg.Route]
              match c.GetHandler codec msg.Route with
              | (some rt, some group, some handler, true) =>
                match handler.LocalHandler rt.method with
                | none => []
                | some fn =>
                  let executor : ExecutorLocal :=
                    { IApplication := c.app
                      Session := session
                      Msg := msg
                      HandlerFn := fn
                      Ctx := ctx
                      BeforeFilters := c.beforeFilters
                      AfterFilters := c.afterFilters
                      PrintLog := c.printRouteLog }
                  [{ group := group, executor := Executor.ofLocal executor }]
              | _ => []

/-- The method `Component.ProcessRemote`: the calls of `InQueue` it makes. -/
def Component.ProcessRemote (c : Component) (_group : Nat) (_executor : ExecutorRemote) :
    List InQueue :=
  if !c.app.Running then
    []
  else
    []

/-! ### Executors -/

/-- What an executor does to the outside, in order. -/
inductive Effect where
  /-- the reflective call `p.handlerFn.Value.Call(params)` -/
  | call (params : List Value)
  /-- the send `p.natsMsg.Respond(rspData)` -/
  | respond (reply : String) (rspData : Bytes)
deriving DecidableEq, Repr

/-- A run of a piece of executor code: the effects up to its end and either its result or
the panic that ended it. -/
structure Run (α : Type) where
  effects : List Effect
  result : Except Panic α

/-- A run that has no effect. -/
def Run.ofExcept {α : Type} (r : Except Panic α) : Run α := ⟨[], r⟩

/-- Sequencing: a panic of the first part ends the run. -/
def Run.andThen {α β : Type} (r : Run α) (f : α → Run β) : Run β :=
  match r.result with
  | .error e => ⟨r.effects, .error e⟩
  | .ok a => ⟨r.effects ++ (f a).effects, (f a).result⟩

instance : Monad Run where
  pure a := Run.ofExcept (.ok a)
  bind := Run.andThen

/-- The deferred function of `Invoke`: `recover()` stops a panic, the function returns. -/
def Run.recover (r : Run Unit) : Run Unit := ⟨r.effects, .ok ()⟩

/-- The reflective call `fn.Value.Call(params)`. -/
def MethodInfo.call (fn : MethodInfo) (params : List Value) : Run (Option (List Value)) :=
  ⟨[Effect.call params], fn.Call params⟩

/-- The method `reflect.Type.Elem`: panics on a type that has no element type. -/
def RType.Elem : RType → Except Panic RType
  | .named name => .error ⟨"reflect: Elem of invalid type " ++ name⟩
  | .pointerTo elem => .ok elem

/-- The method `reflect.Value.IsNil`: panics on a value of a kind that has no nil. -/
def Value.IsNil : Value → Except Panic Bool
  | .nilRef => .ok true
  | .ref _ => .ok false
  | .int32 _ => .error ⟨"reflect: call of reflect.Value.IsNil on int32 Value"⟩
  | .plain _ => .error ⟨"reflect: call of reflect.Value.IsNil on struct Value"⟩

/-- The test `val != nil` followed by the type assertion `val.(int32)`. -/
def Value.asInt32 : Value → Option Int
  | .int32 n => some n
  | _ => none

/-- The method `ExecutorRemote.natsResponse`; an error of `Respond` is only logged. -/
def ExecutorRemote.natsResponse (p : ExecutorRemote) (rsp : Response) : Run Unit :=
  if p.natsMsg.Reply = "" then
    pure ()
  else
    let rspData := (p.IApplication.Marshal (Any.response rsp)).1
    ⟨[Effect.respond p.natsMsg.Reply rspData], .ok ()⟩

/-- The method `ExecutorRemote.UnmarshalData`: Go's pair `(interface{}, error)`; the value is the
pointer `reflect.New(in2.Elem())` after `Unmarshal` has filled what it points to. -/
def ExecutorRemote.UnmarshalData (p : ExecutorRemote) : Except Panic (Value × Option String) :=
  if p.handlerFn.InArgs.length ≠ 1 then
    .ok (Value.nilRef, some "[remote] handler params len is error.")
  else
    match p.handlerFn.InArgs with
    | [] => .error ⟨"runtime error: index out of range"⟩
    | in2 :: _ =>
      match in2.Elem with
      | .error e => .error e
      | .ok elem =>
        match p.IApplication.Unmarshal p.data elem with
        | .error err => .ok (Value.nilRef, some err)
        | .ok obj => .ok (Value.ref obj, none)

/-- The method `ExecutorRemote.invoke0`. -/
def ExecutorRemote.invoke0 (p : ExecutorRemote) : Run (Option (List Value)) := do
  let params : List Value := []
  let ret ← p.handlerFn.call params
  pure ret

/-- The method `ExecutorRemote.invoke1`; `none` is the nil slice it returns when the
request cannot be unmarshalled. -/
def ExecutorRemote.invoke1 (p : ExecutorRemote) : Run (Option (List Value)) := do
  let r ← Run.ofExcept p.UnmarshalData
  match r with
  | (_, some _) => pure none
  | (val, none) =>
    let params : List Value := [val]
    let ret ← p.handlerFn.call params
    pure ret

/-- The method `ExecutorRemote.response`; `none` is a nil slice of results. -/
def ExecutorRemote.response (p : ExecutorRemote) (ret : Option (List Value)) : Run Unit :=
  match ret with
  | none => p.natsResponse { Code := p.IApplication.codes.RPCRemoteExecuteError, Data := [] }
  | some ret =>
    let rsp : Response := { Code := p.IApplication.codes.OK, Data := [] }
    match ret with
    | [r0] =>
      match r0.asInt32 with
      | some code => p.natsResponse { rsp with Code := code }
      | none => p.natsResponse rsp
    | [r0, r1] => do
      let rsp : Response :=
        match r1.asInt32 with
        | some code => { rsp with Code := code }
        | none => rsp
      let isNil ← Run.ofExcept r0.IsNil
      if isNil = false then
        match p.IApplication.Marshal (Any.value r0) with
        | (_, some _) =>
          p.natsResponse { rsp with Code := p.IApplication.codes.RPCRemoteExecuteError }
        | (data, none) => p.natsResponse { rsp with Data := data }
      else
        p.natsResponse rsp
    | _ => p.natsResponse rsp

/-- The method `ExecutorRemote.Invoke`. -/
def ExecutorRemote.Invoke (p : ExecutorRemote) : Run Unit :=
  Run.recover (
    let argsLen := p.handlerFn.InArgs.length
    if argsLen < 0 ∨ argsLen > 1 then
      p.natsResponse { Code := p.IApplication.codes.RPCRemoteExecuteError, Data := [] }
    else do
      let ret ←
        if argsLen = 0 then p.invoke0
        else if argsLen = 1 then p.invoke1
        else pure none
      p.response ret)

/-! ### Queue hash of a remote executor -/

/-- Modelled from the spec: `Route.String()` of net/message, which is not among the sources;
the textual form of a route is `nodeType.handlerName.method`. -/
def Route.String (r : Route) : String :=
  r.nodeType ++ "." ++ r.handleName ++ "." ++ r.method

/-- The UTF-8 encoding of a code point. -/
def utf8Encode (c : Nat) : Bytes :=
  if c < 0x80 then [c]
  else if c < 0x800 then [0xC0 + c / 0x40, 0x80 + c % 0x40]
  else if c < 0x10000 then [0xE0 + c / 0x1000, 0x80 + c / 0x40 % 0x40, 0x80 + c % 0x40]
  else [0xF0 + c / 0x40000, 0x80 + c / 0x1000 % 0x40, 0x80 + c / 0x40 % 0x40, 0x80 + c % 0x40]

/-- The conversion `[]byte(str)`. -/
def bytesOfString (s : String) : Bytes :=
  s.data.flatMap (fun ch => utf8Encode ch.toNat)

/-- One bit of the CRC-32 register, reflected polynomial `0xEDB88320`. -/
def crc32Bit (crc : Nat) : Nat :=
  if crc % 2 = 1 then (crc / 2) ^^^ 0xEDB88320 else crc / 2

/-- One byte into the CRC-32 register. -/
def crc32Byte (crc : Nat) (b : Nat) : Nat :=
  crc32Bit (crc32Bit (crc32Bit (crc32Bit (crc32Bit (crc32Bit (crc32Bit (crc32Bit
    (crc ^^^ (b % 256)))))))))

/-- The CRC-32 checksum (IEEE) of a byte slice, a `uint32`. -/
def ChecksumIEEE (data : Bytes) : Nat :=
  (data.foldl crc32Byte 0xFFFFFFFF) ^^^ 0xFFFFFFFF

/-- The conversion `int(x)` of an unsigned value, `int` being 64 bits wide. -/
def toInt (x : Nat) : Int :=
  if x % 2 ^ 64 < 2 ^ 63 then ((x % 2 ^ 64 : Nat) : Int) else ((x % 2 ^ 64 : Nat) : Int) - 2 ^ 64

/-- Modelled from the spec: `ccrypto.CRC32` of extend/crypto, which is not among the
sources; the CRC-32 checksum of the string, as an `int`. -/
def CRC32 (s : String) : Int :=
  toInt (ChecksumIEEE (bytesOfString s))

/-- The method `ExecutorRemote.QueueHash`; the operator `%` of Go truncates towards zero and panics on
a zero divisor. -/
def ExecutorRemote.QueueHash (p : ExecutorRemote) (queueNum : Int) : Except Panic Int :=
  let hash := CRC32 p.rt.String
  if queueNum = 0 then .error ⟨"runtime error: integer divide by zero"⟩
  else .ok (Int.tmod hash queueNum)

/-! ## Scenarios

Concrete collaborators and inputs, used to evaluate the definitions above. -/

/-- Lower-casing of an ASCII letter. -/
def lowerChar (c : Char) : Char :=
  if 65 ≤ c.toNat ∧ c.toNat ≤ 90 then Char.ofNat (c.toNat + 32) else c

/-- The default `nameFn`, `strings.ToLower`, on ASCII names. -/
def ToLower (s : String) : String := ⟨s.data.map lowerChar⟩

/-- The dotted parts of a text. -/
def splitDots : List Char → List (List Char)
  | [] => [[]]
  | ch :: rest =>
    match splitDots rest with
    | [] => [[]]
    | part :: parts => if ch = '.' then [] :: part :: parts else (ch :: part) :: parts

/-- Modelled from the spec: `cherryMessage.DecodeRoute` of net/message, which is not among
the sources; a route is `nodeType.handlerName.method` with three non-empty fields, anything
else is rejected. -/
def DecodeRoute (route : String) : Except String Route :=
  match splitDots route.data with
  | [a, b, c] =>
    if a = [] ∨ b = [] ∨ c = [] then .error "invalid route"
    else .ok { nodeType := ⟨a⟩, handleName := ⟨b⟩, method := ⟨c⟩ }
  | _ => .error "invalid route"

/-- A codec whose `ParseRoute` decodes the textual route of the message. -/
def demoCodec : Codec :=
  { DecodeRoute := DecodeRoute
    ParseRoute := fun msg => DecodeRoute msg.Route }

/-- A serializer for the scenarios: an object with fields, behind a pointer or by value, is
written as the list of its field values, a response as its code followed by its data;
nothing else can be written. -/
def demoMarshal : Any → Bytes × Option String
  | .value (.ref obj) =>
    if obj.fields = [] then ([], some "marshal: no fields")
    else (obj.fields.map (fun f => f.2.toNat), none)
  | .value (.plain obj) =>
    if obj.fields = [] then ([], some "marshal: no fields")
    else (obj.fields.map (fun f => f.2.toNat), none)
  | .value _ => ([], some "marshal: unsupported value")
  | .response rsp => (rsp.Code.toNat :: rsp.Data, none)

/-- The reader of the scenarios: one byte is the field `ts` of the requested type. -/
def demoUnmarshal (data : Bytes) (t : RType) : Except String Obj :=
  match t, data with
  | .named name, [x] => .ok { typeName := name, fields := [("ts", (x : Int))] }
  | _, _ => .error "unmarshal: bad payload"

/-- The application of the scenarios. -/
def demoApp (running : Bool) (nodeType : String) : Application :=
  { Running := running
    NodeType := nodeType
    Marshal := demoMarshal
    Unmarshal := demoUnmarshal
    codes := { OK := 0, RPCRemoteExecuteError := 24 } }

/-- A method `Send(req *Req)` that returns nothing. -/
def sendMethod : MethodInfo :=
  { InArgs := [RType.pointerTo (RType.named "Req")]
    Call := fun _ => .ok none }

/-- A handler with the one local method `Send`. -/
def chatHandler (name : String) : Handler :=
  { Name := name
    LocalHandler := fun method => if method = "Send" then some sendMethod else none
    RemoteHandler := fun _ => none }

/-- A handler with the one local method `m`. -/
def hHandler (name : String) : Handler :=
  { Name := name
    LocalHandler := fun method => if method = "m" then some sendMethod else none
    RemoteHandler := fun _ => none }

/-- The component of scenario S1 before registration: no group, default options. -/
def emptyComponent (running : Bool) (nodeType : String) : Component :=
  { beforeFilters := []
    afterFilters := []
    nameFn := ToLower
    printRouteLog := false
    app := demoApp running nodeType
    groups := [] }

/-- The group of scenario S1 as the application builds it, keyed by the name as written. -/
def chatGroup : HandlerGroup := { handlers := [("Chat", some (chatHandler "Chat"))] }

/-- The component of scenarios S1 and S2: `chatGroup` registered. -/
def chatComponent (running : Bool) (nodeType : String) : Component :=
  (emptyComponent running nodeType).Register (some chatGroup) ["Chat"]

/-- Two groups that both hold a handler under the key `h`. -/
def twoGroups : Component :=
  { emptyComponent true "game" with
    groups := [{ handlers := [("h", some (hHandler "first"))] },
               { handlers := [("x", some (chatHandler "x")), ("h", some (hHandler "second"))] }] }

/-- A group keyed by names as written: `Chat` and `Room` are not normalized, `lobby` is. -/
def mixedGroup : HandlerGroup :=
  { handlers := [("Chat", some (chatHandler "Chat")), ("lobby", some (hHandler "lobby")),
                 ("Room", some (hHandler "Room"))] }

/-- The message of scenario S1. -/
def chatMessage : Message :=
  { ID := 1, Route := "game.Chat.Send", Data := [104, 105], routeInfo := none }

/-- The method `ping() (*Pong, int32)` of scenario S5, which returns `(&Pong{ts:42}, OK)`. -/
def pingMethod : MethodInfo :=
  { InArgs := []
    Call := fun _ =>
      .ok (some [Value.ref { typeName := "Pong", fields := [("ts", 42)] }, Value.int32 0]) }

/-- A method `boom()` that panics when it is invoked (scenario S6). -/
def boomMethod : MethodInfo :=
  { InArgs := []
    Call := fun _ => .error ⟨"boom"⟩ }

/-- A remote executor on the route `game.Room.Join` for the application of the scenarios. -/
def remoteExecutor (fn : MethodInfo) (data : Bytes) (reply : String) : ExecutorRemote :=
  { IApplication := demoApp true "game"
    handlerFn := fn
    rt := { nodeType := "game", handleName := "Room", method := "Join" }
    data := data
    natsMsg := { Subject := "cherry.game", Reply := reply } }

/-! ## Queues and workers of the handler groups

`group.go` and `executor_local.go` are not among the sources; the queues, the workers and
the queue hash of a local executor are modelled from the specification of the handler group:
a group owns `queueNum` bounded FIFO queues, each drained by exactly one worker that invokes
the executors one after the other; `InQueue(executor)` computes
`idx = executor.QueueHash(queueNum)` and pushes onto queue `idx`, blocking the caller while
that queue is at capacity; different groups run in parallel. The optional hash function of
the group options is left out: the specification gives it no part in `InQueue`. -/

/-- Modelled from the spec: `ExecutorLocal.QueueHash`, which is not among the sources; a
local executor hashes by `session.UID()`, to an index in `[0, queueNum)`. -/
def ExecutorLocal.QueueHash (p : ExecutorLocal) (queueNum : Int) : Except Panic Int :=
  if queueNum = 0 then .error ⟨"runtime error: integer divide by zero"⟩
  else .ok (p.Session.UID % queueNum)

/-- The method `QueueHash` of the interface `IExecutor`. -/
def Executor.QueueHash : Executor → Int → Except Panic Int
  | .ofLocal e, queueNum => e.QueueHash queueNum
  | .ofRemote e, queueNum => e.QueueHash queueNum

/-- Modelled from the spec: the options of a handler group, `queueNum` and `queueCapacity`
(`group.go` is not among the sources). -/
structure GroupOptions where
  queueNum : Nat
  queueCap : Nat
deriving DecidableEq, Repr

/-- What an observer of the groups sees, in order. An executor handed to `InQueue` is named
by its ticket, the number of executors enqueued before it. -/
inductive Ev where
  /-- the push of `InQueue` onto a queue of a group -/
  | enqueue (ticket group queue : Nat)
  /-- a worker starts `executor.Invoke()` -/
  | begin (ticket : Nat)
  /-- the call `executor.Invoke()` has returned -/
  | finish (ticket : Nat)
deriving DecidableEq, Repr

/-- Modelled from the spec: the queues and workers of all groups (`group.go` is not among the
sources). `queue g q` is queue `q` of group `g`, oldest ticket first; `busy g q` is the
executor that the worker of that queue is invoking; `pool` lists the executors by ticket. -/
structure Sys where
  queue : Nat → Nat → List Nat
  busy : Nat → Nat → Option Nat
  pool : List Executor
  log : List Ev

/-- The groups before anything is enqueued. -/
def Sys.init : Sys :=
  { queue := fun _ _ => [], busy := fun _ _ => none, pool := [], log := [] }

/-- The table `f` with the entry of queue `q` of group `g` replaced. -/
def setAt {α : Type} (f : Nat → Nat → α) (g q : Nat) (v : α) : Nat → Nat → α :=
  fun g1 q1 => if g1 = g ∧ q1 = q then v else f g1 q1

/-- What can happen next to the groups. -/
inductive Turn where
  /-- a call `group.InQueue(executor)` completes its push -/
  | inQueue (group : Nat) (executor : Executor)
  /-- the worker of a queue takes the oldest executor and starts to invoke it -/
  | take (group queue : Nat)
  /-- the invocation a worker is in returns -/
  | done (group queue : Nat)

/-- Modelled from the spec: one turn of the groups (`InQueue` and the worker loop of
`group.go`, which is not among the sources); `none` when the turn cannot happen in this
state: the hash is no index of the group, the queue is at capacity (the caller blocks), the
worker is busy or its queue empty, or no invocation is running. -/
def Sys.step (cfg : Nat → GroupOptions) (s : Sys) : Turn → Option Sys
  | .inQueue g e =>
    match e.QueueHash (cfg g).queueNum with
    | .error _ => none
    | .ok idx =>
      if 0 ≤ idx ∧ idx < (cfg g).queueNum ∧
          (s.queue g idx.toNat).length < (cfg g).queueCap then
        some { s with
          queue := setAt s.queue g idx.toNat (s.queue g idx.toNat ++ [s.pool.length])
          pool := s.pool ++ [e]
          log := s.log ++ [Ev.enqueue s.pool.length g idx.toNat] }
      else
        none
  | .take g q =>
    if q < (cfg g).queueNum then
      match s.busy g q, s.queue g q with
      | none, t :: rest =>
        some { s with
          queue := setAt s.queue g q rest
          busy := setAt s.busy g q (some t)
          log := s.log ++ [Ev.begin t] }
      | _, _ => none
    else
      none
  | .done g q =>
    match s.busy g q with
    | some t =>
      some { s with
        busy := setAt s.busy g q none
        log := s.log ++ [Ev.finish t] }
    | none => none

/-- A sequence of turns. -/
def Sys.run (cfg : Nat → GroupOptions) : Sys → List Turn → Option Sys
  | s, [] => some s
  | s, turn :: rest =>
    match s.step cfg turn with
    | none => none
    | some s1 => Sys.run cfg s1 rest

/-- What can happen next to the dispatcher: a message is delivered to `ProcessLocal`, another
caller hands an executor to a group (the RPC side with a remote executor), or a worker of a
group moves. -/
inductive Move where
  | processLocal (session : Option Session) (msg : Option Message)
  | inQueue (group : Nat) (executor : Executor)
  | take (group queue : Nat)
  | done (group queue : Nat)

/-- The turns of the groups a move consists of: `ProcessLocal` makes its calls of `InQueue`
one after the other. -/
def Move.turns (codec : Codec) (c : Component) : Move → List Turn
  | .processLocal session msg =>
    (c.ProcessLocal codec session msg).map (fun call => Turn.inQueue call.group call.executor)
  | .inQueue g e => [Turn.inQueue g e]
  | .take g q => [Turn.take g q]
  | .done g q => [Turn.done g q]

/-- The groups after a sequence of moves of the dispatcher, from the start. -/
def dispatch (codec : Codec) (c : Component) (cfg : Nat → GroupOptions) (moves : List Move) :
    Option Sys :=
  Sys.run cfg Sys.init (moves.flatMap (Move.turns codec c))

/-- The executor a turn hands to a group, if it is a call of `InQueue`. -/
def Turn.executor : Turn → Option Executor
  | .inQueue _ e => some e
  | _ => none

/-- The executors handed to the groups during a sequence of moves, by `ProcessLocal` and by
other callers of `InQueue`, in the order of the moves. -/
def deliveredExecutors (codec : Codec) (c : Component) (moves : List Move) : List Executor :=
  (moves.flatMap (Move.turns codec c)).filterMap Turn.executor

/-- The per-session ordering as the specification words it, for one component and one
sequence of moves: whenever `ProcessLocal` has enqueued two local executors of one session
one before the other (tickets `a < b`), on whatever groups, and the later one is invoked,
the invocation of the earlier one has begun before. -/
def PerSessionOrder (codec : Codec) (c : Component) (cfg : Nat → GroupOptions)
    (moves : List Move) : Prop :=
  ∀ s : Sys, dispatch codec c cfg moves = some s →
    ∀ (a b k : Nat) (ea eb : ExecutorLocal),
      a < b → s.pool[a]? = some (Executor.ofLocal ea) →
      s.pool[b]? = some (Executor.ofLocal eb) →
      ea.Session = eb.Session → s.log[k]? = some (Ev.begin b) →
      ∃ m : Nat, m < k ∧ s.log[m]? = some (Ev.begin a)

/-- The invariant of the groups. -/
structure Sys.Inv (cfg : Nat → GroupOptions) (s : Sys) : Prop where
  enq_lt : ∀ i t g q : Nat, s.log[i]? = some (Ev.enqueue t g q) → t < s.pool.length
  enq_mono : ∀ i j a b g q g2 q2 : Nat, i < j → s.log[i]? = some (Ev.enqueue a g q) →
    s.log[j]? = some (Ev.enqueue b g2 q2) → a < b
  enq_state : ∀ i t g q : Nat, s.log[i]? = some (Ev.enqueue t g q) →
    t ∈ s.queue g q ∨ s.busy g q = some t ∨
      ∃ m1 m2 : Nat, m1 < m2 ∧ s.log[m1]? = some (Ev.begin t) ∧ s.log[m2]? = some (Ev.finish t)
  queue_sorted : ∀ g q : Nat, (s.queue g q).Pairwise (fun a b => a < b)
  queue_enq : ∀ g q t : Nat, t ∈ s.queue g q → ∃ i : Nat, s.log[i]? = some (Ev.enqueue t g q)
  begin_lt : ∀ k t : Nat, s.log[k]? = some (Ev.begin t) → t < s.pool.length
  busy_begun : ∀ g q t : Nat, s.busy g q = some t → ∃ m : Nat, s.log[m]? = some (Ev.begin t)
  fifo : ∀ i j k a b g q : Nat, i < j → s.log[i]? = some (Ev.enqueue a g q) →
    s.log[j]? = some (Ev.enqueue b g q) → s.log[k]? = some (Ev.begin b) →
    ∃ m1 m2 : Nat, m1 < m2 ∧ m2 < k ∧ s.log[m1]? = some (Ev.begin a) ∧
      s.log[m2]? = some (Ev.finish a)
  hash : ∀ i t g q : Nat, s.log[i]? = some (Ev.enqueue t g q) →
    ∃ e idx, s.pool[t]? = some e ∧ e.QueueHash (cfg g).queueNum = .ok idx ∧ idx.toNat = q ∧
      0 ≤ idx

/-! ### Scenarios for the order of invocations -/

/-- Two groups, one with the handler `a`, one with the handler `b`. -/
def abComponent : Component :=
  { emptyComponent true "game" with
    groups := [{ handlers := [("a", some (hHandler "a"))] },
               { handlers := [("b", some (hHandler "b"))] }] }

/-- Every group has one queue, of capacity 8. -/
def oneQueue : Nat → GroupOptions := fun _ => { queueNum := 1, queueCap := 8 }

/-- A message of the scenarios on the given route. -/
def messageTo (id : Nat) (route : String) : Message :=
  { ID := id, Route := route, Data := [], routeInfo := none }

/-- Session 7 sends a message for handler `a`, then one for handler `b`; the worker of the
group of `b` starts first. -/
def acrossGroups : List Move :=
  [Move.processLocal (some { UID := 7 }) (some (messageTo 1 "game.a.m")),
   Move.processLocal (some { UID := 7 }) (some (messageTo 2 "game.b.m")),
   Move.take 1 0]

/-- Session 7 sends two messages for handler `a`; the worker of its queue invokes the first,
returns, and starts the second. -/
def withinGroup : List Move :=
  [Move.processLocal (some { UID := 7 }) (some (messageTo 1 "game.a.m")),
   Move.processLocal (some { UID := 7 }) (some (messageTo 2 "game.a.m")),
   Move.take 0 0, Move.done 0 0, Move.take 0 0]

/-- The local executor `ProcessLocal` builds in the scenarios for a message of session 7 on
the route `game.<handler>.m`. -/
def executorFor (id : Nat) (handler : String) : ExecutorLocal :=
  { IApplication := demoApp true "game"
    Session := { UID := 7 }
    Msg := { messageTo id ("game." ++ handler ++ ".m") with
      routeInfo := some { nodeType := "game", handleName := handler, method := "m" } }
    HandlerFn := sendMethod
    Ctx := [CtxValue.messageId id, CtxValue.route ("game." ++ handler ++ ".m")]
    BeforeFilters := []
    AfterFilters := []
    PrintLog := false }

/-! ## Lemmas on Go maps -/

theorem GoMap.get_eq_none_iff {V : Type} (m : GoMap V) (k : String) :
    m.get k = none ↔ k ∉ m.keys := by
  induction m with
  | nil => simp [GoMap.get, GoMap.keys]
  | cons kv rest ih =>
    obtain ⟨k1, v1⟩ := kv
    by_cases h : k = k1
    · subst h
      simp [GoMap.get, GoMap.keys, List.lookup]
    · have hb : (k == k1) = false := by simpa using h
      have ih1 : List.lookup k rest = none ↔ k ∉ List.map Prod.fst rest := by
        simpa [GoMap.get, GoMap.keys] using ih
      simp only [GoMap.get, GoMap.keys, List.lookup, hb, List.map_cons, List.mem_cons, h,
        false_or]
      exact ih1

theorem GoMap.mem_of_get {V : Type} (m : GoMap V) (k : String) (v : V)
    (h : m.get k = some v) : (k, v) ∈ m := by
  induction m with
  | nil => simp [GoMap.get] at h
  | cons kv rest ih =>
    obtain ⟨k1, v1⟩ := kv
    by_cases hk : k = k1
    · subst hk
      simp [GoMap.get, List.lookup] at h
      simp [h]
    · have hb : (k == k1) = false := by simpa using hk
      simp only [GoMap.get, List.lookup, hb] at h
      exact List.mem_cons_of_mem _ (ih h)

theorem GoMap.mem_keys_delete {V : Type} (m : GoMap V) (k k1 : String) :
    k1 ∈ (m.delete k).keys ↔ k1 ∈ m.keys ∧ k1 ≠ k := by
  simp only [GoMap.keys, GoMap.delete, List.mem_map, List.mem_filter]
  constructor
  · rintro ⟨kv, ⟨hmem, hne⟩, rfl⟩
    exact ⟨⟨kv, hmem, rfl⟩, by simpa using hne⟩
  · rintro ⟨⟨kv, hmem, rfl⟩, hne⟩
    exact ⟨kv, ⟨hmem, by simpa using hne⟩, rfl⟩

theorem GoMap.mem_keys_set {V : Type} (m : GoMap V) (k k1 : String) (v : V) :
    k1 ∈ (m.set k v).keys ↔ k1 = k ∨ (k1 ∈ m.keys ∧ k1 ≠ k) := by
  have h := GoMap.mem_keys_delete m k k1
  simp only [GoMap.keys] at h
  simp only [GoMap.set, GoMap.keys, List.map_cons, List.mem_cons, h]

theorem GoMap.get_delete {V : Type} (m : GoMap V) (k k1 : String) :
    (m.delete k).get k1 = if k1 = k then none else m.get k1 := by
  induction m with
  | nil => simp [GoMap.get, GoMap.delete]
  | cons kv rest ih =>
    obtain ⟨k2, v2⟩ := kv
    simp only [GoMap.get, GoMap.delete] at ih
    by_cases h2 : k2 = k
    · subst h2
      by_cases h1 : k1 = k2
      · subst h1
        simpa [GoMap.get, GoMap.delete, List.filter_cons] using ih
      · have hb : (k1 == k2) = false := by simpa using h1
        simpa [GoMap.get, GoMap.delete, List.filter_cons, List.lookup, hb, h1] using ih
    · by_cases h1 : k1 = k2
      · subst h1
        simp [GoMap.get, GoMap.delete, List.filter_cons, List.lookup, h2]
      · have hb : (k1 == k2) = false := by simpa using h1
        simpa [GoMap.get, GoMap.delete, List.filter_cons, List.lookup, hb, h2] using ih

theorem GoMap.get_set {V : Type} (m : GoMap V) (k k1 : String) (v : V) :
    (m.set k v).get k1 = if k1 = k then some v else m.get k1 := by
  by_cases h1 : k1 = k
  · subst h1
    simp [GoMap.get, GoMap.set, List.lookup]
  · have hb : (k1 == k) = false := by simpa using h1
    have h := GoMap.get_delete m k k1
    rw [if_neg h1] at h
    rw [if_neg h1, ← h]
    simp only [GoMap.get, GoMap.set, List.lookup, hb]

/-! ## Lemmas on `Register` -/

/-- A key of the table after one step of the loop was a key before, or is normalized. -/
theorem registerEntry_keys (nameFn : String → String)
    (hidem : ∀ x, nameFn (nameFn x) = nameFn x) (m : GoMap (Option Handler))
    (k k1 : String) (h : k1 ∈ (registerEntry nameFn m k).keys) :
    k1 ∈ m.keys ∨ nameFn k1 = k1 := by
  unfold registerEntry at h
  split at h
  · exact Or.inl h
  · simp only at h
    split at h
    · rcases (GoMap.mem_keys_set _ _ _ _).1 h with h1 | ⟨h1, _⟩
      · exact Or.inr (by rw [h1]; exact hidem k)
      · exact Or.inl ((GoMap.mem_keys_delete _ _ _).1 h1).1
    · exact Or.inl h

/-- The key the loop has just reached is normalized if it is still in the table. -/
theorem registerEntry_reached (nameFn : String → String) (m : GoMap (Option Handler))
    (k : String) (h : k ∈ (registerEntry nameFn m k).keys) : nameFn k = k := by
  unfold registerEntry at h
  split at h
  · next hget => exact absurd h ((GoMap.get_eq_none_iff m k).1 hget)
  · simp only at h
    split at h
    · next hne =>
      rcases (GoMap.mem_keys_set _ _ _ _).1 h with h1 | ⟨h1, _⟩
      · exact absurd h1.symm hne
      · exact absurd rfl ((GoMap.mem_keys_delete _ _ _).1 h1).2
    · next hne => exact not_not.1 hne

/-- The loop of `Register`: every key of the final table was a key of the initial table that
the traversal did not reach, or is normalized. -/
theorem registerLoop_keys (nameFn : String → String)
    (hidem : ∀ x, nameFn (nameFn x) = nameFn x) (order : List String) :
    ∀ (m : GoMap (Option Handler)) (k : String),
      k ∈ (order.foldl (registerEntry nameFn) m).keys →
      (k ∈ m.keys ∧ k ∉ order) ∨ nameFn k = k := by
  induction order with
  | nil => intro m k h; exact Or.inl ⟨h, by simp⟩
  | cons k0 rest ih =>
    intro m k h
    rw [List.foldl_cons] at h
    rcases ih _ k h with ⟨h1, h2⟩ | h1
    · by_cases hk : k = k0
      · subst hk
        exact Or.inr (registerEntry_reached nameFn m k h1)
      · rcases registerEntry_keys nameFn hidem m k0 k h1 with h3 | h3
        · exact Or.inl ⟨h3, by simp [hk, h2]⟩
        · exact Or.inr h3
    · exact Or.inr h1

/-- A normalized key of the table stays in the table through one step of the loop. -/
theorem registerEntry_keeps_normal (nameFn : String → String)
    (hidem : ∀ x, nameFn (nameFn x) = nameFn x) (m : GoMap (Option Handler))
    (k0 k : String) (h : nameFn k ∈ m.keys) : nameFn k ∈ (registerEntry nameFn m k0).keys := by
  unfold registerEntry
  split
  · exact h
  · simp only
    split
    · next hne =>
      refine (GoMap.mem_keys_set _ _ _ _).2 ?_
      by_cases h1 : nameFn k = nameFn k0
      · exact Or.inl h1
      · refine Or.inr ⟨(GoMap.mem_keys_delete _ _ _).2 ⟨h, ?_⟩, h1⟩
        intro h2
        apply hne
        rw [← h2, hidem]
    · exact h

/-- The step of the loop on a key of the table puts its normalized form in the table. -/
theorem registerEntry_self (nameFn : String → String) (m : GoMap (Option Handler))
    (k : String) (h : k ∈ m.keys) : nameFn k ∈ (registerEntry nameFn m k).keys := by
  unfold registerEntry
  split
  · next hget => exact absurd h ((GoMap.get_eq_none_iff m k).1 hget)
  · simp only
    split
    · exact (GoMap.mem_keys_set _ _ _ _).2 (Or.inl rfl)
    · next hne =>
      rw [not_not.1 hne]
      exact h

/-- The step of the loop on one key leaves the other keys in the table. -/
theorem registerEntry_other (nameFn : String → String) (m : GoMap (Option Handler))
    (k0 k : String) (h : k ∈ m.keys) (hne : k ≠ k0) :
    k ∈ (registerEntry nameFn m k0).keys := by
  unfold registerEntry
  split
  · exact h
  · simp only
    split
    · refine (GoMap.mem_keys_set _ _ _ _).2 ?_
      by_cases h1 : k = nameFn k0
      · exact Or.inl h1
      · exact Or.inr ⟨(GoMap.mem_keys_delete _ _ _).2 ⟨h, hne⟩, h1⟩
    · exact h

/-- The loop of `Register`: the normalized form of a key is in the final table when it is in
the table already, or when the key is in the table and the traversal still reaches it. -/
theorem registerLoop_image (nameFn : String → String)
    (hidem : ∀ x, nameFn (nameFn x) = nameFn x) (order : List String) :
    ∀ (m : GoMap (Option Handler)) (k : String),
      (nameFn k ∈ m.keys ∨ (k ∈ m.keys ∧ k ∈ order)) →
      nameFn k ∈ (order.foldl (registerEntry nameFn) m).keys := by
  induction order with
  | nil =>
    intro m k h
    rcases h with h | ⟨_, h⟩
    · exact h
    · simp at h
  | cons k0 rest ih =>
    intro m k h
    rw [List.foldl_cons]
    apply ih
    rcases h with h | ⟨h1, h2⟩
    · exact Or.inl (registerEntry_keeps_normal nameFn hidem m k0 k h)
    · by_cases hk : k = k0
      · subst hk
        exact Or.inl (registerEntry_self nameFn m k h1)
      · refine Or.inr ⟨registerEntry_other nameFn m k0 k h1 hk, ?_⟩
        rcases List.mem_cons.1 h2 with h3 | h3
        · exact absurd h3 hk
        · exact h3

/-- One step of the loop: a handler stored in the table was stored in the initial table `m0`,
under the same name or under a name with that normalized form. -/
theorem registerEntry_get (nameFn : String → String)
    (hidem : ∀ x, nameFn (nameFn x) = nameFn x) (m0 m : GoMap (Option Handler))
    (k1 : String)
    (inv : ∀ k h, m.get k = some h → ∃ k0, m0.get k0 = some h ∧ (k = k0 ∨ k = nameFn k0)) :
    ∀ k h, (registerEntry nameFn m k1).get k = some h →
      ∃ k0, m0.get k0 = some h ∧ (k = k0 ∨ k = nameFn k0) := by
  intro k h hget
  unfold registerEntry at hget
  split at hget
  · exact inv k h hget
  · rename_i x handler hk1
    simp only at hget
    split at hget
    · rw [GoMap.get_set] at hget
      by_cases hk : k = nameFn k1
      · rw [if_pos hk] at hget
        cases hget
        obtain ⟨k0, h0, h1⟩ := inv k1 _ hk1
        refine ⟨k0, h0, Or.inr ?_⟩
        rcases h1 with h1 | h1
        · rw [hk, h1]
        · rw [hk, h1, hidem]
      · rw [if_neg hk, GoMap.get_delete] at hget
        by_cases hk2 : k = k1
        · rw [if_pos hk2] at hget
          cases hget
        · rw [if_neg hk2] at hget
          exact inv k h hget
    · exact inv k h hget

/-- The loop of `Register`: a handler stored in the final table was stored in the initial
table, under the same name or under a name with that normalized form. -/
theorem registerLoop_get (nameFn : String → String)
    (hidem : ∀ x, nameFn (nameFn x) = nameFn x) (m0 : GoMap (Option Handler))
    (order : List String) :
    ∀ m : GoMap (Option Handler),
      (∀ k h, m.get k = some h → ∃ k0, m0.get k0 = some h ∧ (k = k0 ∨ k = nameFn k0)) →
      ∀ k h, (order.foldl (registerEntry nameFn) m).get k = some h →
        ∃ k0, m0.get k0 = some h ∧ (k = k0 ∨ k = nameFn k0) := by
  induction order with
  | nil => intro m inv k h hget; exact inv k h hget
  | cons k1 rest ih =>
    intro m inv k h hget
    rw [List.foldl_cons] at hget
    exact ih _ (registerEntry_get nameFn hidem m0 m k1 inv) k h hget

/-! ## Lemmas on `getGroup` -/

theorem getGroupFrom_spec (handlerName : String) (groups : List HandlerGroup) :
    ∀ i : Nat,
      ((∀ g ∈ groups, g.handlers.get handlerName = none) ∧
        getGroupFrom handlerName i groups = (none, none)) ∨
      (∃ (j : Nat) (g : HandlerGroup) (handler : Option Handler),
        groups[j]? = some g ∧ g.handlers.get handlerName = some handler ∧
        (∀ k, k < j → ∀ g1, groups[k]? = some g1 → g1.handlers.get handlerName = none) ∧
        getGroupFrom handlerName i groups = (some (i + j), handler)) := by
  induction groups with
  | nil => intro i; exact Or.inl ⟨by simp, rfl⟩
  | cons g rest ih =>
    intro i
    cases hget : g.handlers.get handlerName with
    | some handler =>
      refine Or.inr ⟨0, g, handler, by simp, hget, ?_, ?_⟩
      · intro k hk; exact absurd hk (Nat.not_lt_zero k)
      · simp [getGroupFrom, hget]
    | none =>
      rcases ih (i + 1) with ⟨h1, h2⟩ | ⟨j, g1, handler, h1, h2, h3, h4⟩
      · refine Or.inl ⟨?_, ?_⟩
        · intro g2 hg2
          rcases List.mem_cons.1 hg2 with rfl | hg2
          · exact hget
          · exact h1 g2 hg2
        · simp [getGroupFrom, hget, h2]
      · refine Or.inr ⟨j + 1, g1, handler, by simpa using h1, h2, ?_, ?_⟩
        · intro k hk g2 hg2
          cases k with
          | zero =>
            simp at hg2
            rw [← hg2]; exact hget
          | succ k => exact h3 k (by omega) g2 (by simpa using hg2)
        · simp only [getGroupFrom, hget, h4]
          congr 2
          omega

theorem lowerChar_idem (c : Char) : lowerChar (lowerChar c) = lowerChar c := by
  by_cases h : 65 ≤ c.toNat ∧ c.toNat ≤ 90
  · have hc : c = Char.ofNat c.toNat := (Char.ofNat_toNat c).symm
    obtain ⟨h1, h2⟩ := h
    generalize c.toNat = n at hc h1 h2
    subst hc
    interval_cases n <;> decide
  · simp [lowerChar, h]

theorem ToLower_idem (s : String) : ToLower (ToLower s) = ToLower s := by
  have h : lowerChar ∘ lowerChar = lowerChar := funext lowerChar_idem
  simp [ToLower, h]

/-! ## The dispatch component -/

/-- C3: after `Register(group)` with a non-nil group and an idempotent `nameFn`, in whatever
order the traversal reaches the entries (every entry of the table is reached; entries
created on the way may be reached or not, any number of times), the group is appended and
its handler table stores only and all the normalized names: every key is its own normalized
form, the normalized form of every handler name of the group is a key, and every handler
stored under a key was a handler of the group under a name with that normalized form. -/
theorem Register_stores_normalized_names (c : Component) (group : HandlerGroup)
    (order : List String)
    (hidem : ∀ x, c.nameFn (c.nameFn x) = c.nameFn x)
    (horder : ∀ k ∈ group.handlers.keys, k ∈ order) :
    ∃ registered : HandlerGroup,
      (c.Register (some group) order).groups = c.groups ++ [registered] ∧
      (∀ k ∈ registered.handlers.keys, c.nameFn k = k) ∧
      (∀ k ∈ group.handlers.keys, c.nameFn k ∈ registered.handlers.keys) ∧
      (∀ k h, registered.handlers.get k = some h →
        ∃ k0, group.handlers.get k0 = some h ∧ c.nameFn k0 = k) := by
  have hnormal : ∀ k ∈ (order.foldl (registerEntry c.nameFn) group.handlers).keys,
      c.nameFn k = k := by
    intro k hk
    rcases registerLoop_keys c.nameFn hidem order group.handlers k hk with ⟨h1, h2⟩ | h
    · exact absurd (horder k h1) h2
    · exact h
  refine ⟨{ group with handlers := order.foldl (registerEntry c.nameFn) group.handlers },
    rfl, hnormal, ?_, ?_⟩
  · intro k hk
    exact registerLoop_image c.nameFn hidem order group.handlers k (Or.inr ⟨hk, horder k hk⟩)
  · intro k h hget
    obtain ⟨k0, h0, h1⟩ := registerLoop_get c.nameFn hidem group.handlers order group.handlers
      (fun k h hg => ⟨k, hg, Or.inl rfl⟩) k h hget
    refine ⟨k0, h0, ?_⟩
    rcases h1 with h1 | h1
    · have hk : k ∈ (order.foldl (registerEntry c.nameFn) group.handlers).keys := by
        by_contra hnot
        rw [(GoMap.get_eq_none_iff _ _).2 hnot] at hget
        cases hget
      rw [← h1]
      exact hnormal k hk
    · exact h1.symm

/-- Scenario S1, registration: the group keyed `Chat` is stored under `chat` only; and of a
group keyed `Chat`, `lobby`, `Room`, traversed from the last entry to the first, the keys
`chat`, `lobby` and `room` are all stored. -/
theorem Register_stores_normalized_names_witness :
    (∀ x, ToLower (ToLower x) = ToLower x) ∧
    (∀ k ∈ chatGroup.handlers.keys, k ∈ ["Chat"]) ∧
    (∃ registered : HandlerGroup,
      (chatComponent true "game").groups = [] ++ [registered] ∧
      (∀ k ∈ registered.handlers.keys, ToLower k = k) ∧
      (∀ k ∈ chatGroup.handlers.keys, ToLower k ∈ registered.handlers.keys) ∧
      (∀ k h, registered.handlers.get k = some h →
        ∃ k0, chatGroup.handlers.get k0 = some h ∧ ToLower k0 = k)) ∧
    (∃ registered : HandlerGroup,
      ((emptyComponent true "game").Register (some mixedGroup) ["Room", "lobby", "Chat"]).groups
        = [] ++ [registered] ∧
      (∀ k ∈ registered.handlers.keys, ToLower k = k) ∧
      (∀ k ∈ mixedGroup.handlers.keys, ToLower k ∈ registered.handlers.keys) ∧
      (∀ k h, registered.handlers.get k = some h →
        ∃ k0, mixedGroup.handlers.get k0 = some h ∧ ToLower k0 = k)) ∧
    (((emptyComponent true "game").Register (some mixedGroup) ["Room", "lobby", "Chat"]).groups.map
      (fun g => g.handlers.keys)) = [["chat", "room", "lobby"]] :=
  ⟨ToLower_idem, by decide,
    Register_stores_normalized_names (emptyComponent true "game") chatGroup ["Chat"]
      ToLower_idem (by decide),
    Register_stores_normalized_names (emptyComponent true "game") mixedGroup
      ["Room", "lobby", "Chat"] ToLower_idem (by decide),
    by decide⟩

/-- C2: with all registered handlers non-nil, `GetHandler` on a route text that decodes to
`r` with a non-empty normalized handler name `n` returns `found = true` with `r`, the
earliest-registered group whose table has the key `n`, and the handler stored there; and it
returns `found = false` exactly when decoding fails, `n` is empty, or no registered group
has the key `n`. -/
theorem GetHandler_first_match (codec : Codec) (c : Component) (route : String)
    (hnonnil : ∀ g ∈ c.groups, ∀ kv ∈ g.handlers, kv.2 ≠ none) :
    (∀ (r : Route) (i : Nat) (g : HandlerGroup) (h : Handler),
      codec.DecodeRoute route = .ok r → c.nameFn r.handleName ≠ "" →
      c.groups[i]? = some g → g.handlers.get (c.nameFn r.handleName) = some (some h) →
      (∀ k, k < i → ∀ g1, c.groups[k]? = some g1 →
        g1.handlers.get (c.nameFn r.handleName) = none) →
      c.GetHandler codec route = (some r, some i, some h, true)) ∧
    ((c.GetHandler codec route).2.2.2 = false ↔
      ((∃ e, codec.DecodeRoute route = .error e) ∨
        ∃ r, codec.DecodeRoute route = .ok r ∧
          (c.nameFn r.handleName = "" ∨
            ∀ g ∈ c.groups, g.handlers.get (c.nameFn r.handleName) = none))) := by
  constructor
  · intro r i g h hdec hname hg hget hfirst
    rcases getGroupFrom_spec (c.nameFn r.handleName) c.groups 0 with
      ⟨hnone, _⟩ | ⟨j, g1, h1, hj, hget1, hfirst1, hres⟩
    · have hmem : g ∈ c.groups := List.getElem?_mem hg
      rw [hnone g hmem] at hget
      exact absurd hget (by simp)
    · have hij : j = i := by
        rcases Nat.lt_trichotomy j i with hlt | heq | hgt
        · rw [hfirst j hlt g1 hj] at hget1
          exact absurd hget1 (by simp)
        · exact heq
        · rw [hfirst1 i hgt g hg] at hget
          exact absurd hget (by simp)
      subst hij
      rw [hj] at hg
      cases hg
      rw [hget1] at hget
      cases hget
      simp [Component.GetHandler, Component.getGroup, hdec, hname, hres]
  · cases hdec : codec.DecodeRoute route with
    | error e => simp [Component.GetHandler, hdec]
    | ok r =>
      by_cases hname : c.nameFn r.handleName = ""
      · simp [Component.GetHandler, hdec, hname]
      · rcases getGroupFrom_spec (c.nameFn r.handleName) c.groups 0 with
          ⟨hnone, hres⟩ | ⟨j, g1, h1, hj, hget1, _, hres⟩
        · simp only [Component.GetHandler, Component.getGroup, hdec, hname, hres, if_false,
            true_iff]
          exact Or.inr ⟨r, rfl, Or.inr hnone⟩
        · have hmem : g1 ∈ c.groups := List.getElem?_mem hj
          have hne : h1 ≠ none := hnonnil g1 hmem _ (GoMap.mem_of_get _ _ _ hget1)
          obtain ⟨h2, rfl⟩ := Option.ne_none_iff_exists.1 hne
          have hex : ¬ ∀ g ∈ c.groups, g.handlers.get (c.nameFn r.handleName) = none := by
            intro hall
            rw [hall g1 hmem] at hget1
            exact absurd hget1 (by simp)
          simp [Component.GetHandler, Component.getGroup, hdec, hname, hres, hex]

/-- First-match lookup: with two groups that both hold `h`, the route `game.h.m` resolves
to the handler of the first group. -/
theorem GetHandler_first_match_witness :
    (∀ g ∈ twoGroups.groups, ∀ kv ∈ g.handlers, kv.2 ≠ none) ∧
    twoGroups.GetHandler demoCodec "game.h.m" =
      (some { nodeType := "game", handleName := "h", method := "m" }, some 0,
        some (hHandler "first"), true) :=
  have hnonnil : ∀ g ∈ twoGroups.groups, ∀ kv ∈ g.handlers, kv.2 ≠ none := by
    simp only [twoGroups, List.mem_cons, List.mem_singleton, List.not_mem_nil, or_false]
    rintro g (rfl | rfl) kv hkv
    · simp only [List.mem_singleton] at hkv
      subst hkv; simp
    · simp only [List.mem_cons, List.mem_singleton, List.not_mem_nil, or_false] at hkv
      rcases hkv with rfl | rfl <;> simp
  ⟨hnonnil,
    (GetHandler_first_match demoCodec twoGroups "game.h.m" hnonnil).1
      { nodeType := "game", handleName := "h", method := "m" } 0
      { handlers := [("h", some (hHandler "first"))] } (hHandler "first")
      rfl (by decide) rfl rfl (by intro k hk; exact absurd hk (Nat.not_lt_zero k))⟩

/-- C9 (what the code does): `ProcessRemote` calls `InQueue` for no executor, whether the
application is running or not. -/
theorem ProcessRemote_enqueues_nothing (c : Component) (group : Nat)
    (executor : ExecutorRemote) : c.ProcessRemote group executor = [] := by
  unfold Component.ProcessRemote
  split <;> rfl

/-- C1: `ProcessLocal` calls `InQueue` exactly once, with an `ExecutorLocal` and on the
group `GetHandler(msg.Route)` returns, when the application is running, session and message
are non-nil, the route of the message is already parsed or `ParseRoute` succeeds, the node
type of the route is that of the application, `GetHandler` finds a handler and that handler
has the local method of the route; in every other case it calls `InQueue` for nothing. -/
theorem ProcessLocal_enqueues_iff_accepted (codec : Codec) (c : Component)
    (session : Option Session) (msg : Option Message) :
    (∀ (s : Session) (m : Message) (ri rt : Route) (group : Nat) (handler : Handler)
        (fn : MethodInfo),
      c.app.Running = true → session = some s → msg = some m →
      (m.routeInfo = some ri ∨ (m.routeInfo = none ∧ codec.ParseRoute m = .ok ri)) →
      ri.nodeType = c.app.NodeType →
      c.GetHandler codec m.Route = (some rt, some group, some handler, true) →
      handler.LocalHandler rt.method = some fn →
      c.ProcessLocal codec session msg =
        [{ group := group
           executor := Executor.ofLocal
             { IApplication := c.app
               Session := s
               Msg := { m with routeInfo := some ri }
               HandlerFn := fn
               Ctx := [CtxValue.messageId m.ID, CtxValue.route m.Route]
               BeforeFilters := c.beforeFilters
               AfterFilters := c.afterFilters
               PrintLog := c.printRouteLog } }]) ∧
    ((¬ ∃ (s : Session) (m : Message) (ri rt : Route) (group : Nat) (handler : Handler)
        (fn : MethodInfo),
      c.app.Running = true ∧ session = some s ∧ msg = some m ∧
      (m.routeInfo = some ri ∨ (m.routeInfo = none ∧ codec.ParseRoute m = .ok ri)) ∧
      ri.nodeType = c.app.NodeType ∧
      c.GetHandler codec m.Route = (some rt, some group, some handler, true) ∧
      handler.LocalHandler rt.method = some fn) →
      c.ProcessLocal codec session msg = []) := by
  constructor
  · intro s m ri rt group handler fn hrun hs hm hri hnode hget hfn
    subst hs hm
    rcases hri with hri | ⟨hri, hparse⟩
    · have hm : ({ m with routeInfo := some ri } : Message) = m := by
        cases m; simp_all
      simp [Component.ProcessLocal, hrun, hri, hnode, hget, hfn, hm]
    · simp [Component.ProcessLocal, hrun, hri, hparse, hnode, hget, hfn]
  · intro hno
    cases hrun : c.app.Running with
    | false => simp [Component.ProcessLocal, hrun]
    | true =>
      cases session with
      | none => simp [Component.ProcessLocal, hrun]
      | some s =>
        cases msg with
        | none => simp [Component.ProcessLocal, hrun]
        | some m =>
          have key : ∀ ri : Route,
              (m.routeInfo = some ri ∨ (m.routeInfo = none ∧ codec.ParseRoute m = .ok ri)) →
              ri.nodeType = c.app.NodeType →
              ∀ rt group handler, c.GetHandler codec m.Route =
                (some rt, some group, some handler, true) →
              handler.LocalHandler rt.method = none := by
            intro ri hri hnode rt group handler hget
            cases hfn : handler.LocalHandler rt.method with
            | none => rfl
            | some fn =>
              exact absurd ⟨s, m, ri, rt, group, handler, fn, hrun, rfl, rfl, hri, hnode,
                hget, hfn⟩ hno
          cases hri : m.routeInfo with
          | some ri =>
            by_cases hnode : ri.nodeType = c.app.NodeType
            · have key1 := key ri (Or.inl hri) hnode
              simp only [Component.ProcessLocal, hrun, hri, hnode]
              simp only [Bool.not_true, Bool.false_eq_true, if_false, ne_eq, not_true,
                if_false]
              split
              · next rt group handler hget => simp [key1 rt group handler hget]
              · rfl
            · simp [Component.ProcessLocal, hrun, hri, hnode]
          | none =>
            cases hparse : codec.ParseRoute m with
            | error e => simp [Component.ProcessLocal, hrun, hri, hparse]
            | ok ri =>
              by_cases hnode : ri.nodeType = c.app.NodeType
              · have key1 := key ri (Or.inr ⟨hri, hparse⟩) hnode
                simp only [Component.ProcessLocal, hrun, hri, hparse, hnode]
                simp only [Bool.not_true, Bool.false_eq_true, if_false, ne_eq, not_true,
                  if_false]
                split
                · next rt group handler hget => simp [key1 rt group handler hget]
                · rfl
              · simp [Component.ProcessLocal, hrun, hri, hparse, hnode]

/-- Scenarios S1 and S2: the message `game.Chat.Send` of a session is handed once to group 0
when the application is a `game` node, and to no group when it is a `gate` node. -/
theorem ProcessLocal_enqueues_iff_accepted_witness :
    (chatComponent true "game").ProcessLocal demoCodec (some { UID := 7 }) (some chatMessage) =
      [{ group := 0
         executor := Executor.ofLocal
           { IApplication := demoApp true "game"
             Session := { UID := 7 }
             Msg := { chatMessage with
               routeInfo := some { nodeType := "game", handleName := "Chat", method := "Send" } }
             HandlerFn := sendMethod
             Ctx := [CtxValue.messageId 1, CtxValue.route "game.Chat.Send"]
             BeforeFilters := []
             AfterFilters := []
             PrintLog := false } }] ∧
    (chatComponent true "gate").ProcessLocal demoCodec (some { UID := 7 }) (some chatMessage) =
      [] :=
  ⟨(ProcessLocal_enqueues_iff_accepted demoCodec (chatComponent true "game")
      (some { UID := 7 }) (some chatMessage)).1 { UID := 7 } chatMessage
      { nodeType := "game", handleName := "Chat", method := "Send" }
      { nodeType := "game", handleName := "Chat", method := "Send" } 0 (chatHandler "Chat")
      sendMethod rfl rfl rfl (Or.inr ⟨rfl, rfl⟩) rfl rfl rfl,
    (ProcessLocal_enqueues_iff_accepted demoCodec (chatComponent true "gate")
      (some { UID := 7 }) (some chatMessage)).2 (by
        rintro ⟨s, m, ri, rt, group, handler, fn, -, -, hm, hri, hnode, -, -⟩
        cases hm
        rcases hri with hri | ⟨-, hri⟩
        · cases hri
        · have h1 : ri = { nodeType := "game", handleName := "Chat", method := "Send" } := by
            have h2 : demoCodec.ParseRoute chatMessage =
                .ok { nodeType := "game", handleName := "Chat", method := "Send" } := rfl
            rw [h2] at hri
            cases hri
            rfl
          subst h1
          exact absurd hnode (by decide))⟩

/-! ## The queue hash of a remote executor -/

theorem crc32Bit_lt (crc : Nat) (h : crc < 2 ^ 32) : crc32Bit crc < 2 ^ 32 := by
  unfold crc32Bit
  split
  · exact Nat.xor_lt_two_pow (by omega) (by norm_num)
  · omega

theorem crc32Byte_lt (crc b : Nat) (h : crc < 2 ^ 32) : crc32Byte crc b < 2 ^ 32 := by
  unfold crc32Byte
  have h0 : crc ^^^ (b % 256) < 2 ^ 32 := Nat.xor_lt_two_pow h (by omega)
  exact crc32Bit_lt _ (crc32Bit_lt _ (crc32Bit_lt _ (crc32Bit_lt _ (crc32Bit_lt _
    (crc32Bit_lt _ (crc32Bit_lt _ (crc32Bit_lt _ h0)))))))

theorem foldl_crc32Byte_lt (data : Bytes) :
    ∀ crc : Nat, crc < 2 ^ 32 → data.foldl crc32Byte crc < 2 ^ 32 := by
  induction data with
  | nil => intro crc h; exact h
  | cons b rest ih => intro crc h; exact ih _ (crc32Byte_lt crc b h)

/-- The checksum fits 32 bits. -/
theorem ChecksumIEEE_lt (data : Bytes) : ChecksumIEEE data < 2 ^ 32 := by
  unfold ChecksumIEEE
  exact Nat.xor_lt_two_pow (foldl_crc32Byte_lt data _ (by norm_num)) (by norm_num)

/-- The check value of CRC-32: the checksum of the ASCII digits `123456789`. -/
theorem ChecksumIEEE_check : ChecksumIEEE (bytesOfString "123456789") = 0xCBF43926 := by
  set_option maxRecDepth 100000 in decide

/-- The conversion of a 32-bit value to `int` keeps the value. -/
theorem toInt_of_lt (x : Nat) (h : x < 2 ^ 32) : toInt x = (x : Int) := by
  unfold toInt
  have h1 : x % 2 ^ 64 = x := Nat.mod_eq_of_lt (by omega)
  rw [h1, if_pos (by omega)]

theorem CRC32_nonneg (s : String) : 0 ≤ CRC32 s := by
  unfold CRC32
  rw [toInt_of_lt _ (ChecksumIEEE_lt _)]
  exact Int.ofNat_nonneg _

/-- C4: two remote executors whose routes have the same `String()` get, for every
`queueNum >= 1`, the same queue index, whatever their data, handler method and transport
message: the remainder of `CRC32(route.String())` by `queueNum`, which is also its
mathematical residue. -/
theorem QueueHash_same_route (p q : ExecutorRemote) (queueNum : Int)
    (hroute : p.rt.String = q.rt.String) (hnum : 1 ≤ queueNum) :
    p.QueueHash queueNum = q.QueueHash queueNum ∧
    p.QueueHash queueNum = .ok (Int.tmod (CRC32 p.rt.String) queueNum) ∧
    Int.tmod (CRC32 p.rt.String) queueNum = CRC32 p.rt.String % queueNum := by
  have h0 : queueNum ≠ 0 := by omega
  refine ⟨?_, ?_, ?_⟩
  · simp [ExecutorRemote.QueueHash, hroute]
  · simp [ExecutorRemote.QueueHash, h0]
  · exact Int.tmod_eq_emod (CRC32_nonneg _) (by omega)

/-- Scenario S4: on a group of four queues, executors on the route `game.Room.Join` that
differ in method, data and reply token get the same queue index. -/
theorem QueueHash_same_route_witness :
    (remoteExecutor pingMethod [] "").rt.String = (remoteExecutor boomMethod [1] "r").rt.String ∧
    (1 : Int) ≤ 4 ∧
    (remoteExecutor pingMethod [] "").QueueHash 4 = (remoteExecutor boomMethod [1] "r").QueueHash 4 :=
  ⟨rfl, by decide,
    (QueueHash_same_route (remoteExecutor pingMethod [] "") (remoteExecutor boomMethod [1] "r") 4
      rfl (by decide)).1⟩

/-- C5: for every remote executor and every `queueNum >= 1`, `QueueHash(queueNum)` returns
an index `idx` with `0 <= idx < queueNum`. -/
theorem QueueHash_in_range (p : ExecutorRemote) (queueNum : Int) (hnum : 1 ≤ queueNum) :
    ∃ idx : Int, p.QueueHash queueNum = .ok idx ∧ 0 ≤ idx ∧ idx < queueNum := by
  have h0 : queueNum ≠ 0 := by omega
  refine ⟨Int.tmod (CRC32 p.rt.String) queueNum, ?_, ?_, ?_⟩
  · simp [ExecutorRemote.QueueHash, h0]
  · exact Int.tmod_nonneg _ (CRC32_nonneg _)
  · exact Int.tmod_lt_of_pos _ (by omega)

/-- On a group of four queues the index of a remote executor is one of 0, 1, 2, 3; for the
route `game.Room.Join` it is 1. -/
theorem QueueHash_in_range_witness :
    (1 : Int) ≤ 4 ∧
    (∃ idx : Int, (remoteExecutor pingMethod [] "").QueueHash 4 = .ok idx ∧ 0 ≤ idx ∧ idx < 4) ∧
    (remoteExecutor pingMethod [] "").QueueHash 4 = .ok 1 :=
  ⟨by decide, QueueHash_in_range (remoteExecutor pingMethod [] "") 4 (by decide),
    by set_option maxRecDepth 100000 in rfl⟩

/-! ## The remote executor -/

/-- The parameters `Invoke` passes to the handler method: none for a method without
arguments, the unmarshalled request for a method with one argument. -/
theorem Invoke_of_call (p : ExecutorRemote) (params : List Value)
    (hparams : (p.handlerFn.InArgs = [] ∧ params = []) ∨
      (∃ (t : RType) (v : Value), p.handlerFn.InArgs = [t] ∧
        p.UnmarshalData = .ok (v, none) ∧ params = [v])) :
    p.Invoke = Run.recover ((p.handlerFn.call params).andThen p.response) := by
  rcases hparams with ⟨hargs, rfl⟩ | ⟨t, v, hargs, hun, rfl⟩
  · simp [ExecutorRemote.Invoke, ExecutorRemote.invoke0, hargs, bind, pure, Run.andThen,
      Run.ofExcept, MethodInfo.call]
    cases hcall : p.handlerFn.Call [] <;> simp
  · simp [ExecutorRemote.Invoke, ExecutorRemote.invoke1, hargs, hun, bind, pure, Run.andThen,
      Run.ofExcept, MethodInfo.call]
    cases hcall : p.handlerFn.Call [v] <;> simp

/-- A payload of a kind that has no nil: whatever the serializer does, `Invoke` calls the
method, `IsNil` panics in `response`, the deferred function recovers, and nothing is sent. -/
theorem Invoke_of_value_payload (p : ExecutorRemote) (params : List Value) (obj : Obj)
    (code : Value)
    (hparams : (p.handlerFn.InArgs = [] ∧ params = []) ∨
      (∃ (t : RType) (v : Value), p.handlerFn.InArgs = [t] ∧
        p.UnmarshalData = .ok (v, none) ∧ params = [v]))
    (hcall : p.handlerFn.Call params = .ok (some [Value.plain obj, code])) :
    p.Invoke.result = .ok () ∧ p.Invoke.effects = [Effect.call params] := by
  rw [Invoke_of_call p params hparams]
  refine ⟨rfl, ?_⟩
  cases code <;>
    simp [Run.recover, Run.andThen, MethodInfo.call, hcall, ExecutorRemote.response,
      Value.asInt32, Value.IsNil, Run.ofExcept, bind]

/-- C8 (what the code does): when the handler method panics on invocation, `Invoke` recovers
the panic and returns, and its only effect is the call of the method: no response is sent,
with or without a reply token. -/
theorem Invoke_handler_panic_sends_nothing (p : ExecutorRemote) (params : List Value)
    (e : Panic)
    (hparams : (p.handlerFn.InArgs = [] ∧ params = []) ∨
      (∃ (t : RType) (v : Value), p.handlerFn.InArgs = [t] ∧
        p.UnmarshalData = .ok (v, none) ∧ params = [v]))
    (hcall : p.handlerFn.Call params = .error e) :
    p.Invoke.result = .ok () ∧ p.Invoke.effects = [Effect.call params] := by
  rw [Invoke_of_call p params hparams]
  simp [Run.recover, Run.andThen, MethodInfo.call, hcall]

/-- Scenario S6: the method `boom()` panics, a reply is expected; `Invoke` returns, the
method was called, and nothing was sent to the reply token. -/
theorem Invoke_handler_panic_sends_nothing_witness :
    (remoteExecutor boomMethod [] "_INBOX.1").natsMsg.Reply ≠ "" ∧
    (remoteExecutor boomMethod [] "_INBOX.1").Invoke.result = .ok () ∧
    (remoteExecutor boomMethod [] "_INBOX.1").Invoke.effects = [Effect.call []] :=
  ⟨by decide,
    Invoke_handler_panic_sends_nothing (remoteExecutor boomMethod [] "_INBOX.1") [] ⟨"boom"⟩
      (Or.inl ⟨rfl, rfl⟩) rfl⟩

/-! ## Queues and workers: the order of invocations -/

theorem getElem?_snoc {α : Type} (l : List α) (x y : α) (i : Nat) :
    (l ++ [x])[i]? = some y ↔ l[i]? = some y ∨ (i = l.length ∧ x = y) := by
  rcases Nat.lt_trichotomy i l.length with h | h | h
  · rw [List.getElem?_append_left h]
    constructor
    · exact Or.inl
    · rintro (h1 | ⟨h1, _⟩)
      · exact h1
      · omega
  · subst h
    simp
  · have h1 : l[i]? = none := List.getElem?_eq_none (by omega)
    have h2 : (l ++ [x])[i]? = none := List.getElem?_eq_none (by simp; omega)
    rw [h1, h2]
    constructor
    · intro h3; cases h3
    · rintro (h3 | ⟨h3, _⟩)
      · cases h3
      · omega

theorem getElem?_lt_of_some {α : Type} (l : List α) (y : α) (i : Nat) (h : l[i]? = some y) :
    i < l.length := by
  by_contra hlt
  rw [List.getElem?_eq_none (by omega)] at h
  cases h

theorem Sys.Inv.init (cfg : Nat → GroupOptions) : Sys.Inv cfg Sys.init where
  enq_lt := by intro i t g q h; simp [Sys.init] at h
  enq_mono := by intro i j a b g q g2 q2 _ h; simp [Sys.init] at h
  enq_state := by intro i t g q h; simp [Sys.init] at h
  queue_sorted := by intro g q; simp [Sys.init]
  queue_enq := by intro g q t h; simp [Sys.init] at h
  begin_lt := by intro k t h; simp [Sys.init] at h
  busy_begun := by intro g q t h; simp [Sys.init] at h
  fifo := by intro i j k a b g q _ h; simp [Sys.init] at h
  hash := by intro i t g q h; simp [Sys.init] at h

/-- The invocation a worker is in returns: the invariant is kept. -/
theorem Sys.Inv.done (cfg : Nat → GroupOptions) (s : Sys) (g q t : Nat) (inv : Sys.Inv cfg s)
    (hbusy : s.busy g q = some t) :
    Sys.Inv cfg { s with busy := setAt s.busy g q none, log := s.log ++ [Ev.finish t] } where
  enq_lt := by
    intro i t1 g1 q1 h
    rcases (getElem?_snoc _ _ _ _).1 h with h | ⟨_, h⟩
    · exact inv.enq_lt i t1 g1 q1 h
    · cases h
  enq_mono := by
    intro i j a b g1 q1 g2 q2 hij hi hj
    rcases (getElem?_snoc _ _ _ _).1 hi with hi | ⟨_, hi⟩
    · rcases (getElem?_snoc _ _ _ _).1 hj with hj | ⟨_, hj⟩
      · exact inv.enq_mono i j a b g1 q1 g2 q2 hij hi hj
      · cases hj
    · cases hi
  enq_state := by
    intro i t1 g1 q1 h
    rcases (getElem?_snoc _ _ _ _).1 h with h | ⟨_, h⟩
    · rcases inv.enq_state i t1 g1 q1 h with h1 | h1 | ⟨m1, m2, h1, h2, h3⟩
      · exact Or.inl h1
      · by_cases hgq : g1 = g ∧ q1 = q
        · obtain ⟨rfl, rfl⟩ := hgq
          rw [hbusy] at h1
          cases h1
          obtain ⟨m, hm⟩ := inv.busy_begun g1 q1 t hbusy
          refine Or.inr (Or.inr ⟨m, s.log.length, getElem?_lt_of_some _ _ _ hm, ?_, ?_⟩)
          · exact (getElem?_snoc _ _ _ _).2 (Or.inl hm)
          · exact (getElem?_snoc _ _ _ _).2 (Or.inr ⟨rfl, rfl⟩)
        · exact Or.inr (Or.inl (by simp only [setAt, hgq, if_false]; exact h1))
      · exact Or.inr (Or.inr ⟨m1, m2, h1, (getElem?_snoc _ _ _ _).2 (Or.inl h2),
          (getElem?_snoc _ _ _ _).2 (Or.inl h3)⟩)
    · cases h
  queue_sorted := inv.queue_sorted
  queue_enq := by
    intro g1 q1 t1 h
    obtain ⟨i, hi⟩ := inv.queue_enq g1 q1 t1 h
    exact ⟨i, (getElem?_snoc _ _ _ _).2 (Or.inl hi)⟩
  begin_lt := by
    intro k t1 h
    rcases (getElem?_snoc _ _ _ _).1 h with h | ⟨_, h⟩
    · exact inv.begin_lt k t1 h
    · cases h
  busy_begun := by
    intro g1 q1 t1 h
    by_cases hgq : g1 = g ∧ q1 = q
    · simp [setAt, hgq] at h
    · simp only [setAt, hgq, if_false] at h
      obtain ⟨m, hm⟩ := inv.busy_begun g1 q1 t1 h
      exact ⟨m, (getElem?_snoc _ _ _ _).2 (Or.inl hm)⟩
  fifo := by
    intro i j k a b g1 q1 hij hi hj hk
    rcases (getElem?_snoc _ _ _ _).1 hi with hi | ⟨_, hi⟩
    · rcases (getElem?_snoc _ _ _ _).1 hj with hj | ⟨_, hj⟩
      · rcases (getElem?_snoc _ _ _ _).1 hk with hk | ⟨_, hk⟩
        · obtain ⟨m1, m2, h1, h2, h3, h4⟩ := inv.fifo i j k a b g1 q1 hij hi hj hk
          exact ⟨m1, m2, h1, h2, (getElem?_snoc _ _ _ _).2 (Or.inl h3),
            (getElem?_snoc _ _ _ _).2 (Or.inl h4)⟩
        · cases hk
      · cases hj
    · cases hi
  hash := by
    intro i t1 g1 q1 h
    rcases (getElem?_snoc _ _ _ _).1 h with h | ⟨_, h⟩
    · exact inv.hash i t1 g1 q1 h
    · cases h

/-- A ticket is enqueued once: two enqueue events of one ticket are one event. -/
theorem Sys.Inv.enq_unique (cfg : Nat → GroupOptions) (s : Sys) (inv : Sys.Inv cfg s)
    (i j t g q g2 q2 : Nat) (hi : s.log[i]? = some (Ev.enqueue t g q))
    (hj : s.log[j]? = some (Ev.enqueue t g2 q2)) : g = g2 ∧ q = q2 := by
  rcases Nat.lt_trichotomy i j with h | h | h
  · exact absurd (inv.enq_mono i j t t g q g2 q2 h hi hj) (Nat.lt_irrefl t)
  · subst h
    rw [hi] at hj
    cases hj
    exact ⟨rfl, rfl⟩
  · exact absurd (inv.enq_mono j i t t g2 q2 g q h hj hi) (Nat.lt_irrefl t)

/-- A worker takes the oldest executor of its queue: the invariant is kept. -/
theorem Sys.Inv.take (cfg : Nat → GroupOptions) (s : Sys) (g q t : Nat) (rest : List Nat)
    (inv : Sys.Inv cfg s) (hbusy : s.busy g q = none) (hqueue : s.queue g q = t :: rest) :
    Sys.Inv cfg { s with
      queue := setAt s.queue g q rest
      busy := setAt s.busy g q (some t)
      log := s.log ++ [Ev.begin t] } where
  enq_lt := by
    intro i t1 g1 q1 h
    rcases (getElem?_snoc _ _ _ _).1 h with h | ⟨_, h⟩
    · exact inv.enq_lt i t1 g1 q1 h
    · cases h
  enq_mono := by
    intro i j a b g1 q1 g2 q2 hij hi hj
    rcases (getElem?_snoc _ _ _ _).1 hi with hi | ⟨_, hi⟩
    · rcases (getElem?_snoc _ _ _ _).1 hj with hj | ⟨_, hj⟩
      · exact inv.enq_mono i j a b g1 q1 g2 q2 hij hi hj
      · cases hj
    · cases hi
  enq_state := by
    intro i t1 g1 q1 h
    rcases (getElem?_snoc _ _ _ _).1 h with h0 | ⟨_, h0⟩
    · clear h
      by_cases hgq : g1 = g ∧ q1 = q
      · obtain ⟨rfl, rfl⟩ := hgq
        rcases inv.enq_state i t1 g1 q1 h0 with h1 | h1 | ⟨m1, m2, h1, h2, h3⟩
        · rw [hqueue] at h1
          rcases List.mem_cons.1 h1 with h1 | h1
          · exact Or.inr (Or.inl (by simp [setAt, h1]))
          · exact Or.inl (by simp [setAt, h1])
        · rw [hbusy] at h1
          cases h1
        · exact Or.inr (Or.inr ⟨m1, m2, h1, (getElem?_snoc _ _ _ _).2 (Or.inl h2),
            (getElem?_snoc _ _ _ _).2 (Or.inl h3)⟩)
      · rcases inv.enq_state i t1 g1 q1 h0 with h1 | h1 | ⟨m1, m2, h1, h2, h3⟩
        · exact Or.inl (by simp only [setAt, hgq, if_false]; exact h1)
        · exact Or.inr (Or.inl (by simp only [setAt, hgq, if_false]; exact h1))
        · exact Or.inr (Or.inr ⟨m1, m2, h1, (getElem?_snoc _ _ _ _).2 (Or.inl h2),
            (getElem?_snoc _ _ _ _).2 (Or.inl h3)⟩)
    · cases h0
  queue_sorted := by
    intro g1 q1
    by_cases hgq : g1 = g ∧ q1 = q
    · obtain ⟨rfl, rfl⟩ := hgq
      have h := inv.queue_sorted g1 q1
      rw [hqueue] at h
      simpa [setAt] using (List.pairwise_cons.1 h).2
    · simp only [setAt, hgq, if_false]
      exact inv.queue_sorted g1 q1
  queue_enq := by
    intro g1 q1 t1 h
    have h1 : t1 ∈ s.queue g1 q1 := by
      by_cases hgq : g1 = g ∧ q1 = q
      · obtain ⟨rfl, rfl⟩ := hgq
        rw [hqueue]
        exact List.mem_cons_of_mem _ (by simpa [setAt] using h)
      · simpa only [setAt, hgq, if_false] using h
    obtain ⟨i, hi⟩ := inv.queue_enq g1 q1 t1 h1
    exact ⟨i, (getElem?_snoc _ _ _ _).2 (Or.inl hi)⟩
  begin_lt := by
    intro k t1 h
    rcases (getElem?_snoc _ _ _ _).1 h with h | ⟨_, h⟩
    · exact inv.begin_lt k t1 h
    · cases h
      obtain ⟨i, hi⟩ := inv.queue_enq g q t (by rw [hqueue]; exact List.mem_cons_self _ _)
      exact inv.enq_lt i t g q hi
  busy_begun := by
    intro g1 q1 t1 h
    by_cases hgq : g1 = g ∧ q1 = q
    · simp only [setAt, hgq, and_self, if_true, Option.some.injEq] at h
      subst h
      exact ⟨s.log.length, (getElem?_snoc _ _ _ _).2 (Or.inr ⟨rfl, rfl⟩)⟩
    · simp only [setAt, hgq, if_false] at h
      obtain ⟨m, hm⟩ := inv.busy_begun g1 q1 t1 h
      exact ⟨m, (getElem?_snoc _ _ _ _).2 (Or.inl hm)⟩
  fifo := by
    intro i j k a b g1 q1 hij hi hj hk
    rcases (getElem?_snoc _ _ _ _).1 hi with hi1 | ⟨_, hi1⟩
    · rcases (getElem?_snoc _ _ _ _).1 hj with hj1 | ⟨_, hj1⟩
      · rcases (getElem?_snoc _ _ _ _).1 hk with hk1 | ⟨hk1, hb⟩
        · obtain ⟨m1, m2, h1, h2, h3, h4⟩ := inv.fifo i j k a b g1 q1 hij hi1 hj1 hk1
          exact ⟨m1, m2, h1, h2, (getElem?_snoc _ _ _ _).2 (Or.inl h3),
            (getElem?_snoc _ _ _ _).2 (Or.inl h4)⟩
        · clear hi hj hk
          cases hb
          obtain ⟨i0, hi0⟩ :=
            inv.queue_enq g q t (by rw [hqueue]; exact List.mem_cons_self _ _)
          obtain ⟨rfl, rfl⟩ := inv.enq_unique cfg s j i0 t g1 q1 g q hj1 hi0
          have hab : a < t := inv.enq_mono i j a t g1 q1 g1 q1 hij hi1 hj1
          rcases inv.enq_state i a g1 q1 hi1 with h1 | h1 | ⟨m1, m2, h1, h2, h3⟩
          · rw [hqueue] at h1
            rcases List.mem_cons.1 h1 with h1 | h1
            · omega
            · have hs := inv.queue_sorted g1 q1
              rw [hqueue] at hs
              have := (List.pairwise_cons.1 hs).1 a h1
              omega
          · rw [hbusy] at h1
            cases h1
          · refine ⟨m1, m2, h1, ?_, (getElem?_snoc _ _ _ _).2 (Or.inl h2),
              (getElem?_snoc _ _ _ _).2 (Or.inl h3)⟩
            rw [hk1]
            exact getElem?_lt_of_some _ _ _ h3
      · cases hj1
    · cases hi1
  hash := by
    intro i t1 g1 q1 h
    rcases (getElem?_snoc _ _ _ _).1 h with h | ⟨_, h⟩
    · exact inv.hash i t1 g1 q1 h
    · cases h

/-- A call of `InQueue` pushes its executor: the invariant is kept. -/
theorem Sys.Inv.inQueue (cfg : Nat → GroupOptions) (s : Sys) (g : Nat) (e : Executor)
    (idx : Int) (inv : Sys.Inv cfg s) (hhash : e.QueueHash (cfg g).queueNum = .ok idx)
    (hidx : 0 ≤ idx) :
    Sys.Inv cfg { s with
      queue := setAt s.queue g idx.toNat (s.queue g idx.toNat ++ [s.pool.length])
      pool := s.pool ++ [e]
      log := s.log ++ [Ev.enqueue s.pool.length g idx.toNat] } where
  enq_lt := by
    intro i t1 g1 q1 h
    simp only [List.length_append, List.length_singleton]
    rcases (getElem?_snoc _ _ _ _).1 h with h | ⟨_, h⟩
    · exact Nat.lt_succ_of_lt (inv.enq_lt i t1 g1 q1 h)
    · cases h
      exact Nat.lt_succ_self _
  enq_mono := by
    intro i j a b g1 q1 g2 q2 hij hi hj
    rcases (getElem?_snoc _ _ _ _).1 hj with hj | ⟨hj, hb⟩
    · have hjlt := getElem?_lt_of_some _ _ _ hj
      rcases (getElem?_snoc _ _ _ _).1 hi with hi | ⟨hi, _⟩
      · exact inv.enq_mono i j a b g1 q1 g2 q2 hij hi hj
      · omega
    · cases hb
      rcases (getElem?_snoc _ _ _ _).1 hi with hi | ⟨hi, _⟩
      · exact inv.enq_lt i a g1 q1 hi
      · omega
  enq_state := by
    intro i t1 g1 q1 h
    rcases (getElem?_snoc _ _ _ _).1 h with h | ⟨_, h⟩
    · rcases inv.enq_state i t1 g1 q1 h with h1 | h1 | ⟨m1, m2, h1, h2, h3⟩
      · refine Or.inl ?_
        by_cases hgq : g1 = g ∧ q1 = idx.toNat
        · obtain ⟨rfl, rfl⟩ := hgq
          simp [setAt, h1]
        · simp only [setAt, hgq, if_false]; exact h1
      · exact Or.inr (Or.inl h1)
      · exact Or.inr (Or.inr ⟨m1, m2, h1, (getElem?_snoc _ _ _ _).2 (Or.inl h2),
          (getElem?_snoc _ _ _ _).2 (Or.inl h3)⟩)
    · cases h
      exact Or.inl (by simp [setAt])
  queue_sorted := by
    intro g1 q1
    by_cases hgq : g1 = g ∧ q1 = idx.toNat
    · obtain ⟨rfl, rfl⟩ := hgq
      simp only [setAt, and_self, if_true]
      rw [List.pairwise_append]
      refine ⟨inv.queue_sorted _ _, List.pairwise_singleton _ _, ?_⟩
      intro a ha b hb
      rw [List.mem_singleton] at hb
      subst hb
      obtain ⟨i, hi⟩ := inv.queue_enq _ _ a ha
      exact inv.enq_lt i a _ _ hi
    · simp only [setAt, hgq, if_false]
      exact inv.queue_sorted g1 q1
  queue_enq := by
    intro g1 q1 t1 h
    by_cases hgq : g1 = g ∧ q1 = idx.toNat
    · obtain ⟨rfl, rfl⟩ := hgq
      simp only [setAt, and_self, if_true, List.mem_append, List.mem_singleton] at h
      rcases h with h | h
      · obtain ⟨i, hi⟩ := inv.queue_enq _ _ t1 h
        exact ⟨i, (getElem?_snoc _ _ _ _).2 (Or.inl hi)⟩
      · subst h
        exact ⟨s.log.length, (getElem?_snoc _ _ _ _).2 (Or.inr ⟨rfl, rfl⟩)⟩
    · simp only [setAt, hgq, if_false] at h
      obtain ⟨i, hi⟩ := inv.queue_enq _ _ t1 h
      exact ⟨i, (getElem?_snoc _ _ _ _).2 (Or.inl hi)⟩
  begin_lt := by
    intro k t1 h
    simp only [List.length_append, List.length_singleton]
    rcases (getElem?_snoc _ _ _ _).1 h with h | ⟨_, h⟩
    · exact Nat.lt_succ_of_lt (inv.begin_lt k t1 h)
    · cases h
  busy_begun := by
    intro g1 q1 t1 h
    obtain ⟨m, hm⟩ := inv.busy_begun g1 q1 t1 h
    exact ⟨m, (getElem?_snoc _ _ _ _).2 (Or.inl hm)⟩
  fifo := by
    intro i j k a b g1 q1 hij hi hj hk
    rcases (getElem?_snoc _ _ _ _).1 hk with hk | ⟨_, hk⟩
    · rcases (getElem?_snoc _ _ _ _).1 hj with hj | ⟨_, hb⟩
      · have hjlt := getElem?_lt_of_some _ _ _ hj
        rcases (getElem?_snoc _ _ _ _).1 hi with hi | ⟨hi, _⟩
        · obtain ⟨m1, m2, h1, h2, h3, h4⟩ := inv.fifo i j k a b g1 q1 hij hi hj hk
          exact ⟨m1, m2, h1, h2, (getElem?_snoc _ _ _ _).2 (Or.inl h3),
            (getElem?_snoc _ _ _ _).2 (Or.inl h4)⟩
        · omega
      · cases hb
        exact absurd (inv.begin_lt k _ hk) (Nat.lt_irrefl _)
    · cases hk
  hash := by
    intro i t1 g1 q1 h
    rcases (getElem?_snoc _ _ _ _).1 h with h | ⟨_, h⟩
    · obtain ⟨e1, idx1, h1, h2, h3, h4⟩ := inv.hash i t1 g1 q1 h
      refine ⟨e1, idx1, ?_, h2, h3, h4⟩
      have hlt := getElem?_lt_of_some _ _ _ h1
      rw [List.getElem?_append_left hlt]
      exact h1
    · cases h
      exact ⟨e, idx, by simp, hhash, rfl, hidx⟩

/-- One turn keeps the invariant. -/
theorem Sys.Inv.step (cfg : Nat → GroupOptions) (s s1 : Sys) (turn : Turn)
    (inv : Sys.Inv cfg s) (h : s.step cfg turn = some s1) : Sys.Inv cfg s1 := by
  cases turn with
  | inQueue g e =>
    simp only [Sys.step] at h
    split at h
    · cases h
    · next idx hhash =>
      split at h
      · next hcond =>
        cases h
        exact Sys.Inv.inQueue cfg s g e idx inv hhash hcond.1
      · cases h
  | take g q =>
    simp only [Sys.step] at h
    split at h
    · split at h
      · next t rest hbusy hqueue =>
        cases h
        exact Sys.Inv.take cfg s g q t rest inv hbusy hqueue
      · cases h
    · cases h
  | done g q =>
    simp only [Sys.step] at h
    split at h
    · next t hbusy =>
      cases h
      exact Sys.Inv.done cfg s g q t inv hbusy
    · cases h

/-- Every sequence of turns keeps the invariant. -/
theorem Sys.Inv.run (cfg : Nat → GroupOptions) (turns : List Turn) :
    ∀ s s1 : Sys, Sys.Inv cfg s → Sys.run cfg s turns = some s1 → Sys.Inv cfg s1 := by
  induction turns with
  | nil =>
    intro s s1 inv h
    simp only [Sys.run] at h
    cases h
    exact inv
  | cons turn rest ih =>
    intro s s1 inv h
    simp only [Sys.run] at h
    split at h
    · cases h
    · next s2 hstep => exact ih s2 s1 (Sys.Inv.step cfg s s2 turn inv hstep) h

/-- The pool lists the executors of the calls of `InQueue`, in the order of the calls. -/
theorem Sys.run_pool (cfg : Nat → GroupOptions) (turns : List Turn) :
    ∀ s s1 : Sys, Sys.run cfg s turns = some s1 →
      s1.pool = s.pool ++ turns.filterMap Turn.executor := by
  induction turns with
  | nil =>
    intro s s1 h
    simp only [Sys.run] at h
    cases h
    simp
  | cons turn rest ih =>
    intro s s1 h
    simp only [Sys.run] at h
    split at h
    · cases h
    · next s2 hstep =>
      rw [ih s2 s1 h]
      cases turn with
      | inQueue g e =>
        simp only [Sys.step] at hstep
        split at hstep
        · cases hstep
        · split at hstep
          · cases hstep
            simp [Turn.executor]
          · cases hstep
      | take g q =>
        simp only [Sys.step] at hstep
        split at hstep
        · split at hstep
          · cases hstep
            simp [Turn.executor]
          · cases hstep
        · cases hstep
      | done g q =>
        simp only [Sys.step] at hstep
        split at hstep
        · cases hstep
          simp [Turn.executor]
        · cases hstep

/-- C10, amended: after any sequence of deliveries to `ProcessLocal` and moves of the workers,
(1) for two executors with the same `QueueHash` value that were enqueued one strictly before
the other on the same group, whenever the later one is invoked the invocation of the earlier
one has begun and returned before; (2) hence the same holds for two local executors of one
session that `ProcessLocal` enqueued, the first before the second (tickets `a < b`), on the
same group; (3) the tickets number the executors handed to the groups in the order of the
deliveries. -/
theorem dispatch_order_within_group (codec : Codec) (c : Component) (cfg : Nat → GroupOptions)
    (moves : List Move) (s : Sys) (hrun : dispatch codec c cfg moves = some s) :
    (∀ (i j k a b g qa qb : Nat) (e1 e2 : Executor),
      i < j → s.log[i]? = some (Ev.enqueue a g qa) → s.log[j]? = some (Ev.enqueue b g qb) →
      s.pool[a]? = some e1 → s.pool[b]? = some e2 →
      e1.QueueHash (cfg g).queueNum = e2.QueueHash (cfg g).queueNum →
      s.log[k]? = some (Ev.begin b) →
      ∃ m1 m2 : Nat, m1 < m2 ∧ m2 < k ∧ s.log[m1]? = some (Ev.begin a) ∧
        s.log[m2]? = some (Ev.finish a)) ∧
    (∀ (i j k a b g qa qb : Nat) (ea eb : ExecutorLocal),
      a < b → s.log[i]? = some (Ev.enqueue a g qa) → s.log[j]? = some (Ev.enqueue b g qb) →
      s.pool[a]? = some (Executor.ofLocal ea) → s.pool[b]? = some (Executor.ofLocal eb) →
      ea.Session = eb.Session →
      s.log[k]? = some (Ev.begin b) →
      ∃ m1 m2 : Nat, m1 < m2 ∧ m2 < k ∧ s.log[m1]? = some (Ev.begin a) ∧
        s.log[m2]? = some (Ev.finish a)) ∧
    s.pool = deliveredExecutors codec c moves := by
  have inv : Sys.Inv cfg s := Sys.Inv.run cfg _ Sys.init s (Sys.Inv.init cfg) hrun
  have part1 : ∀ (i j k a b g qa qb : Nat) (e1 e2 : Executor),
      i < j → s.log[i]? = some (Ev.enqueue a g qa) → s.log[j]? = some (Ev.enqueue b g qb) →
      s.pool[a]? = some e1 → s.pool[b]? = some e2 →
      e1.QueueHash (cfg g).queueNum = e2.QueueHash (cfg g).queueNum →
      s.log[k]? = some (Ev.begin b) →
      ∃ m1 m2 : Nat, m1 < m2 ∧ m2 < k ∧ s.log[m1]? = some (Ev.begin a) ∧
        s.log[m2]? = some (Ev.finish a) := by
    intro i j k a b g qa qb e1 e2 hij hi hj ha hb hhash hk
    obtain ⟨e3, idx1, h1, h2, h3, _⟩ := inv.hash i a g qa hi
    obtain ⟨e4, idx2, h4, h5, h6, _⟩ := inv.hash j b g qb hj
    rw [ha] at h1
    rw [hb] at h4
    cases h1
    cases h4
    rw [h2, h5] at hhash
    cases hhash
    rw [h3] at h6
    subst h6
    exact inv.fifo i j k a b g qa hij hi hj hk
  refine ⟨part1, ?_, ?_⟩
  · intro i j k a b g qa qb ea eb hab hi hj ha hb hsession hk
    have hij : i < j := by
      rcases Nat.lt_trichotomy i j with h | h | h
      · exact h
      · subst h
        rw [hi] at hj
        cases hj
        exact absurd hab (Nat.lt_irrefl _)
      · have := inv.enq_mono j i b a g qb g qa h hj hi
        omega
    refine part1 i j k a b g qa qb _ _ hij hi hj ha hb ?_ hk
    simp [Executor.QueueHash, ExecutorLocal.QueueHash, hsession]
  · have h := Sys.run_pool cfg _ Sys.init s hrun
    simpa [Sys.init, deliveredExecutors] using h

/-- Two messages of session 7 for the handler `a`: both are enqueued on queue 0 of group 0,
and the first invocation has returned when the second begins. -/
theorem dispatch_order_within_group_witness :
    ∃ s : Sys, dispatch demoCodec abComponent oneQueue withinGroup = some s ∧
      s.log = [Ev.enqueue 0 0 0, Ev.enqueue 1 0 0, Ev.begin 0, Ev.finish 0, Ev.begin 1] ∧
      ∃ m1 m2 : Nat, m1 < m2 ∧ m2 < 4 ∧ s.log[m1]? = some (Ev.begin 0) ∧
        s.log[m2]? = some (Ev.finish 0) :=
  have hsome : (dispatch demoCodec abComponent oneQueue withinGroup).isSome = true := rfl
  ⟨(dispatch demoCodec abComponent oneQueue withinGroup).get hsome, by simp, rfl,
    (dispatch_order_within_group demoCodec abComponent oneQueue withinGroup
      ((dispatch demoCodec abComponent oneQueue withinGroup).get hsome) (by simp)).2.1
      0 1 4 0 1 0 0 0 (executorFor 1 "a") (executorFor 2 "a") (by decide) rfl rfl rfl rfl rfl
      rfl⟩

/-- C10, as stated, fails: session 7 sends a message for handler `a` (group 0) and then one
for handler `b` (group 1); the worker of group 1 starts the second message while the first
has not been invoked. -/
theorem PerSessionOrder_fails_across_groups :
    ¬ PerSessionOrder demoCodec abComponent oneQueue acrossGroups := by
  intro h
  have hsome : (dispatch demoCodec abComponent oneQueue acrossGroups).isSome = true := rfl
  obtain ⟨m, hm, hlog⟩ := h ((dispatch demoCodec abComponent oneQueue acrossGroups).get hsome)
    (by simp) 0 1 2 (executorFor 1 "a") (executorFor 2 "b") (by decide) rfl rfl rfl rfl
  have hl : ((dispatch demoCodec abComponent oneQueue acrossGroups).get hsome).log =
      [Ev.enqueue 0 0 0, Ev.enqueue 1 1 0, Ev.begin 1] := rfl
  rw [hl] at hlog
  interval_cases m
  · simp at hlog
  · simp at hlog

end cherryHandler
